import Mathlib

/-!
# A shallow embedding of the binmap mapper combinator library

This file embeds the Go package `github.com/saylorsolutions/binmap` in Lean 4
and proves properties of the embedded operations.

Modelling conventions:
* A byte stream is a `List Nat`; writers always produce entries `< 256`
  (each produced entry is taken `% 256` exactly where Go converts to `byte`).
* Machine integers are modelled as `Nat` with an explicit `% 2^w` at each
  point where the Go code performs a conversion or where overflow can occur
  (`uint32(len(...))`, `<< 1` on `uint64`, ...).  Go `int64` values are
  modelled as `Int`, converted through the same bit-level operations the
  Go code performs.
* A Go pointer target is modelled as a lens (`Ref`) into an explicit state
  type `σ`; a possibly-`nil` pointer is an `Option` of such a lens.  A Go
  closure over ambient state is a function on `σ`.
* `Read` takes the state, the byte-order policy and the remaining stream and
  returns the new state, the remaining stream and an outcome; `Write`
  returns the new state, the bytes written so far (also on failure, since the
  sink keeps bytes already flushed) and an outcome.  A Go `panic` is the
  third outcome, carrying an opaque payload.
-/

namespace Binmap

/-- Lean's `Bool`, aliased because the Go constructor named `Bool` below
shadows it inside this namespace. -/
abbrev Boolean := Bool


/-- The byte-order policy (`binary.ByteOrder`): big- or little-endian. -/
inductive Endian where
  | big
  | little
deriving DecidableEq, Repr

/-- The errors the embedded library can surface.  Stream errors follow
`io` (`EOF`, `ErrUnexpectedEOF`); `custom` stands for caller-supplied
errors (hooks, element mappers). -/
inductive Err where
  /-- `ErrNilReadWrite`: "nil read source or write target". -/
  | nilReadWrite
  /-- `ErrUnbalancedTable`: "unbalanced data table". -/
  | unbalancedTable
  /-- `ErrPanic`: "panic during Read or Write". -/
  | panicErr
  /-- `fmt.Errorf("%w: %v", ErrPanic, rerr)`: `ErrPanic` wrapping the
  panic handler's error. -/
  | panicWrapped (e : Err)
  /-- `binary.Read`/`binary.Write` rejecting a value it cannot size
  (e.g. a nil `*complex64`): "invalid type". -/
  | invalidType
  /-- `io.EOF`. -/
  | eof
  /-- `io.ErrUnexpectedEOF`. -/
  | unexpectedEOF
  /-- `binary`'s varint overflow error. -/
  | overflow
  /-- `errors.New("at the end of the source buffer in writeNext")`. -/
  | endOfWriteBuffer
  /-- A caller-supplied error value. -/
  | custom (n : Nat)
deriving DecidableEq, Repr

/-- The outcome of a read or write: normal return with no error, normal
return with an error, or a panic with an opaque payload. -/
inductive Outcome where
  | ok
  | fail (e : Err)
  | panicked (v : Nat)
deriving DecidableEq, Repr

/-- The result of `Mapper.Read`: updated state, remaining stream, outcome. -/
structure RResult (σ : Type) where
  state : σ
  rest : List Nat
  out : Outcome
deriving DecidableEq, Repr

/-- The result of `Mapper.Write`: updated state, bytes written (also kept on
failure — the sink has already received them), outcome. -/
structure WResult (σ : Type) where
  state : σ
  written : List Nat
  out : Outcome
deriving DecidableEq, Repr

/-- The `Mapper` interface: a pair of `Read`/`Write` procedures over the
ambient state `σ`. -/
structure Mapper (σ : Type) where
  read : σ → Endian → List Nat → RResult σ
  write : σ → Endian → WResult σ

/-- A Go pointer into the ambient state: a getter/setter lens. -/
structure Ref (σ τ : Type) where
  get : σ → τ
  set : τ → σ → σ

/-- `nilMapping`: the sentinel mapper whose read and write both return
`ErrNilReadWrite` unconditionally, touching neither state nor stream. -/
def nilMapping {σ : Type} : Mapper σ where
  read := fun s _ st => ⟨s, st, .fail .nilReadWrite⟩
  write := fun s _ => ⟨s, [], .fail .nilReadWrite⟩

/-- The mapper produced by handing `binary.Read`/`binary.Write` a nil
pointer of a type outside their fast path (as `Complex` does): both
operations fail with the transcoder's "invalid type" error before any
I/O happens. -/
def invalidTypeMapping {σ : Type} : Mapper σ where
  read := fun s _ st => ⟨s, st, .fail .invalidType⟩
  write := fun s _ => ⟨s, [], .fail .invalidType⟩

/-! ## Byte-level helpers (`encoding/binary` fixed-width transcodes) -/

/-- Read exactly `n` bytes (`io.ReadFull` semantics): on a short stream the
available bytes are consumed and `io.EOF` (nothing was available) or
`io.ErrUnexpectedEOF` (a strict prefix was) is returned. -/
def readBytesExact (n : Nat) (st : List Nat) : Except Err (List Nat × List Nat) :=
  if n ≤ st.length then .ok (st.take n, st.drop n)
  else if st.isEmpty then .error .eof
  else .error .unexpectedEOF

/-- The little-endian byte decomposition of `x` into `w` bytes
(the `% 256` is Go's conversion to `byte`). -/
def leBytes : Nat → Nat → List Nat
  | 0, _ => []
  | w + 1, x => x % 256 :: leBytes w (x / 256)

/-- The value of a little-endian byte list. -/
def leVal : List Nat → Nat
  | [] => 0
  | b :: bs => b + 256 * leVal bs

/-- `binary.Write` of a `w`-byte unsigned integer under a byte-order
policy. -/
def encUint (e : Endian) (w x : Nat) : List Nat :=
  match e with
  | .little => leBytes w x
  | .big => (leBytes w x).reverse

/-- `binary.Read` decoding of a `w`-byte unsigned integer from the bytes
`bs` under a byte-order policy. -/
def decUint (e : Endian) (bs : List Nat) : Nat :=
  match e with
  | .little => leVal bs
  | .big => leVal bs.reverse

/-- A fixed-width scalar mapper over a non-nil target: read `w` bytes and
decode, or encode and write `w` bytes.  Shared shape of `Byte`, `Bool`,
`Int`, `Float` and `Size` after their nil checks. -/
def fixedWidth {σ τ : Type} (w : Nat) (enc : τ → Nat) (dec : Nat → τ)
    (r : Ref σ τ) : Mapper σ where
  read := fun s e st =>
    match readBytesExact w st with
    | .error err => ⟨s, st.drop w, .fail err⟩
    | .ok (bs, rest) => ⟨r.set (dec (decUint e bs)) s, rest, .ok⟩
  write := fun s e => ⟨s, encUint e w (enc (r.get s)), .ok⟩

/-! ## Primitive scalar mappers (`primitives.go`) -/

/-- `Byte`: maps a single byte. -/
def Byte {σ : Type} (b : Option (Ref σ Nat)) : Mapper σ :=
  match b with
  | none => nilMapping
  | some r => fixedWidth 1 (· % 256) id r

/-- `Bool`: maps a single boolean; the transcode writes `1`/`0` and reads
any nonzero byte as `true`. -/
def Bool {σ : Type} (b : Option (Ref σ Boolean)) : Mapper σ :=
  match b with
  | none => nilMapping
  | some r => fixedWidth 1 (fun t => if t = true then 1 else 0) (fun n => decide (n ≠ 0)) r

/-- `Int[T AnyInt]`: maps a fixed-width integer of `w` bytes; the target
holds the raw `w`-byte pattern (signedness does not change the
transcode). -/
def Int {σ : Type} (w : Nat) (i : Option (Ref σ Nat)) : Mapper σ :=
  match i with
  | none => nilMapping
  | some r => fixedWidth w (· % 2 ^ (8 * w)) id r

/-- `Float[T AnyFloat]`: maps a `w`-byte IEEE-754 value; the target holds
the raw bit pattern (the transcode never inspects the value). -/
def Float {σ : Type} (w : Nat) (f : Option (Ref σ Nat)) : Mapper σ :=
  match f with
  | none => nilMapping
  | some r => fixedWidth w (· % 2 ^ (8 * w)) id r

/-- `Complex[T AnyComplex]`: two consecutive `w`-byte floating point
components (real, then imaginary), each transcoded under the active
byte order.  NOTE: the source performs no nil check here — it hands the
target straight to `Any`, so a nil target reaches `binary.Read` /
`binary.Write`, which reject a nil `*complex64`/`*complex128` with an
"invalid type" error (no bytes are moved), not with `ErrNilReadWrite`. -/
def Complex {σ : Type} (w : Nat) (target : Option (Ref σ (Nat × Nat))) : Mapper σ :=
  match target with
  | none => invalidTypeMapping
  | some r =>
    { read := fun s e st =>
        match readBytesExact (2 * w) st with
        | .error err => ⟨s, st.drop (2 * w), .fail err⟩
        | .ok (bs, rest) =>
            ⟨r.set (decUint e (bs.take w), decUint e (bs.drop w)) s, rest, .ok⟩
      write := fun s e =>
        ⟨s, encUint e w ((r.get s).1 % 2 ^ (8 * w)) ++
            encUint e w ((r.get s).2 % 2 ^ (8 * w)), .ok⟩ }

/-- `Size[S SizeType]`: maps a `w`-byte unsigned integer used as a length
or count. -/
def Size {σ : Type} (w : Nat) (size : Option (Ref σ Nat)) : Mapper σ :=
  match size with
  | none => nilMapping
  | some r => fixedWidth w (· % 2 ^ (8 * w)) id r

/-! ## String mappers (`strings.go`)

Single-byte strings are modelled as their UTF-8 byte lists; the wide
(`Uni16`) variants are modelled at the rune (code point) level, which is
where the Go code does all its work after the `[]rune` conversion. -/

/-- `bytes.TrimRightFunc(buf, r == 0)` on raw bytes: strip trailing zero
bytes (a trailing `0x00` byte always decodes as rune 0; any non-zero
trailing byte decodes as a non-zero rune, stopping the trim). -/
def trimTrailingZeros (l : List Nat) : List Nat :=
  (l.reverse.dropWhile (fun b => b == 0)).reverse

/-- `copy` into a freshly zeroed buffer of `n` bytes: the first
`min (src.length) n` bytes of `src`, zero-padded to exactly `n`. -/
def copyPad (n : Nat) (src : List Nat) : List Nat :=
  src.take n ++ List.replicate (n - src.length) 0

/-- `FixedString`: read exactly `length` bytes and strip trailing zero
bytes; write the string's bytes zero-padded (and silently truncated) to
exactly `length` bytes. -/
def FixedString {σ : Type} (s : Option (Ref σ (List Nat))) (length : Nat) : Mapper σ :=
  match s with
  | none => nilMapping
  | some r =>
    { read := fun st _ input =>
        match readBytesExact length input with
        | .error err => ⟨st, input.drop length, .fail err⟩
        | .ok (bs, rest) => ⟨r.set (trimTrailingZeros bs) st, rest, .ok⟩
      write := fun st _ => ⟨st, copyPad length (r.get st), .ok⟩ }

/-- The byte-at-a-time scan of `NullTermString.read`: accumulate bytes
until a zero byte (excluded) or end of stream (an error). -/
def ntsReadAux : List Nat → List Nat → List Nat × List Nat × Outcome
  | acc, [] => (acc, [], .fail .eof)
  | acc, b :: rest =>
    if b = 0 then (acc, rest, .ok) else ntsReadAux (acc ++ [b]) rest

/-- `NullTermString`: read bytes up to an exclusive zero terminator; write
the string's bytes followed by one zero byte. -/
def NullTermString {σ : Type} (s : Option (Ref σ (List Nat))) : Mapper σ :=
  match s with
  | none => nilMapping
  | some r =>
    { read := fun st _ input =>
        match ntsReadAux [] input with
        | (buf, rest, .ok) => ⟨r.set buf st, rest, .ok⟩
        | (_, rest, o) => ⟨st, rest, o⟩
      write := fun st _ => ⟨st, r.get st ++ [0], .ok⟩ }

/-- `utf16.Decode` applied to a single code unit (as `Uni16NullTermString`
does per iteration): a lone surrogate becomes U+FFFD. -/
def uni16DecodeUnit (u : Nat) : Nat :=
  if 0xD800 ≤ u ∧ u < 0xE000 then 0xFFFD else u

/-- `utf16.AppendRune`: a BMP non-surrogate rune is one code unit, a rune
above the BMP becomes a surrogate pair, anything else (surrogate code
points, out-of-range values) becomes U+FFFD. -/
def utf16AppendRune (buf : List Nat) (r : Nat) : List Nat :=
  if r < 0xD800 ∨ (0xE000 ≤ r ∧ r < 0x10000) then buf ++ [r]
  else if 0x10000 ≤ r ∧ r ≤ 0x10FFFF then
    let rp := r - 0x10000
    buf ++ [0xD800 + rp / 0x400, 0xDC00 + rp % 0x400]
  else buf ++ [0xFFFD]

/-- `utf16.Decode` over a whole code-unit buffer: pairs a high surrogate
with a following low surrogate, turns every other surrogate into
U+FFFD. -/
def utf16Decode : List Nat → List Nat
  | [] => []
  | u :: rest =>
    if u < 0xD800 ∨ 0xE000 ≤ u then u :: utf16Decode rest
    else if u < 0xDC00 then
      match rest with
      | [] => [0xFFFD]
      | v :: rest2 =>
        if 0xDC00 ≤ v ∧ v < 0xE000 then
          (0x10000 + (u - 0xD800) * 0x400 + (v - 0xDC00)) :: utf16Decode rest2
        else 0xFFFD :: utf16Decode (v :: rest2)
    else 0xFFFD :: utf16Decode rest
  termination_by l => l.length
  decreasing_by all_goals simp_all <;> omega

/-- The 16-bit-unit-at-a-time scan of `Uni16NullTermString.read`: decode a
`uint16` per step until a zero unit (exclusive) or a stream error. -/
def u16ntsReadAux (e : Endian) (acc : List Nat) (st : List Nat) :
    List Nat × List Nat × Outcome :=
  if _h : 2 ≤ st.length then
    let u := decUint e (st.take 2)
    if u = 0 then (acc, st.drop 2, .ok)
    else u16ntsReadAux e (acc ++ [uni16DecodeUnit u]) (st.drop 2)
  else (acc, [], .fail (if st.isEmpty then Err.eof else Err.unexpectedEOF))
  termination_by st.length
  decreasing_by simp; omega

/-- `Uni16NullTermString`: UTF-16 code units read one at a time until a
zero unit; write appends the string's code units and a zero unit, each
transcoded under the active byte order. -/
def Uni16NullTermString {σ : Type} (s : Option (Ref σ (List Nat))) : Mapper σ :=
  match s with
  | none => nilMapping
  | some r =>
    { read := fun st e input =>
        match u16ntsReadAux e [] input with
        | (buf, rest, .ok) => ⟨r.set buf st, rest, .ok⟩
        | (_, rest, o) => ⟨st, rest, o⟩
      write := fun st e =>
        let units := ((r.get st).foldl utf16AppendRune []) ++ [0]
        ⟨st, units.flatMap (fun u => encUint e 2 u), .ok⟩ }

/-- Split a byte stream into 16-bit code units under a byte order
(`binary.Read` into a `[]uint16`). -/
def u16Units (e : Endian) : List Nat → List Nat
  | b0 :: b1 :: rest => decUint e [b0, b1] :: u16Units e rest
  | _ => []

/-- `Uni16FixedString`: read exactly `wcharlen` code units, UTF-16-decode
the whole buffer and strip trailing zero runes; write the first
`wcharlen` runes' code units zero-padded/truncated to exactly `wcharlen`
units. -/
def Uni16FixedString {σ : Type} (s : Option (Ref σ (List Nat))) (wcharlen : Nat) :
    Mapper σ :=
  match s with
  | none => nilMapping
  | some r =>
    { read := fun st e input =>
        match readBytesExact (2 * wcharlen) input with
        | .error err => ⟨st, input.drop (2 * wcharlen), .fail err⟩
        | .ok (bs, rest) =>
            ⟨r.set (trimTrailingZeros (utf16Decode (u16Units e bs))) st, rest, .ok⟩
      write := fun st e =>
        let buf := ((r.get st).take wcharlen).foldl utf16AppendRune []
        let out := copyPad wcharlen buf
        ⟨st, out.flatMap (fun u => encUint e 2 (u % 65536)), .ok⟩ }

/-! ## Collection mappers (`slices.go`, `maps.go`)

Go's `mapVal func(*E) Mapper` element-mapper factory is modelled as an
`ElemMapper`: the mapper it returns reads into / writes from the single
element it was handed (`read` receives the fresh element's initial value,
Go's zero value). -/

/-- The element-level mapper produced by a `func(*E) Mapper` factory. -/
structure ElemMapper (E : Type) where
  read : E → Endian → List Nat → E × List Nat × Outcome
  write : E → Endian → List Nat × Outcome

/-- `FixedBytes[S SizeType]`: exactly `length` raw bytes, no delimiter. -/
def FixedBytes {σ : Type} (buf : Option (Ref σ (List Nat))) (length : Nat) : Mapper σ :=
  match buf with
  | none => nilMapping
  | some r =>
    { read := fun s _ st =>
        match readBytesExact length st with
        | .error err => ⟨s, st.drop length, .fail err⟩
        | .ok (bs, rest) => ⟨r.set bs s, rest, .ok⟩
      write := fun s _ => ⟨s, copyPad length (r.get s), .ok⟩ }

/-- `LenBytes[S SizeType]`: a `w`-byte length prefix (the caller's own
field, authoritative on write) followed by that many raw bytes. -/
def LenBytes {σ : Type} (buf : Option (Ref σ (List Nat)))
    (length : Option (Ref σ Nat)) (w : Nat) : Mapper σ :=
  match buf with
  | none => nilMapping
  | some br =>
    match length with
    | none => nilMapping
    | some lr =>
      { read := fun s e st =>
          match (Size w (some lr)).read s e st with
          | ⟨s1, rest, .ok⟩ => (FixedBytes (some br) (lr.get s1)).read s1 e rest
          | other => other
        write := fun s e =>
          let pre := (Size w (some lr)).write s e
          let post := (FixedBytes (some br) (lr.get s)).write s e
          ⟨s, pre.written ++ post.written, post.out⟩ }

/-- The element loop of `Slice.read`: read `n` fresh elements in order,
stopping at the first failure (the elements decoded so far stay in the
local buffer only). -/
def sliceReadAux {E : Type} (elem : ElemMapper E) (dflt : E) :
    Nat → List E → Endian → List Nat → List E × List Nat × Outcome
  | 0, acc, _, st => (acc, st, .ok)
  | n + 1, acc, e, st =>
    match elem.read dflt e st with
    | (t, st1, .ok) => sliceReadAux elem dflt n (acc ++ [t]) e st1
    | (_, st1, o) => (acc, st1, o)

/-- The element loop of `Slice.write`: write the elements in order,
stopping at the first failure but keeping the bytes already flushed. -/
def sliceWriteAux {E : Type} (elem : ElemMapper E) :
    List E → Endian → List Nat × Outcome
  | [], _ => ([], .ok)
  | t :: rest, e =>
    match elem.write t e with
    | (bs, .ok) =>
        let (bs2, o) := sliceWriteAux elem rest e
        (bs ++ bs2, o)
    | (bs, o) => (bs, o)

/-- `make([]E, count); copy(output, *target)`: the first `count` elements,
padded with the zero value when the source is shorter. -/
def copyPadE {E : Type} (count : Nat) (dflt : E) (src : List E) : List E :=
  src.take count ++ List.replicate (count - src.length) dflt

/-- `Slice[E, S]`: exactly `count` elements, the count known ahead of time.
Read decodes into a fresh local slice and assigns the target only after
every element succeeded; write iterates a `count`-sized copy of the
current contents. -/
def Slice {σ E : Type} (target : Option (Ref σ (List E))) (count : Nat)
    (dflt : E) (elem : ElemMapper E) : Mapper σ :=
  match target with
  | none => nilMapping
  | some r =>
    { read := fun s e st =>
        match sliceReadAux elem dflt count [] e st with
        | (input, st1, .ok) => ⟨r.set input s, st1, .ok⟩
        | (_, st1, o) => ⟨s, st1, o⟩
      write := fun s e =>
        let (bs, o) := sliceWriteAux elem (copyPadE count dflt (r.get s)) e
        ⟨s, bs, o⟩ }

/-- `LenSlice[E, S]`: a `w`-byte count prefix (the caller's field,
authoritative on write) followed by `Slice` with that count. -/
def LenSlice {σ E : Type} (target : Option (Ref σ (List E)))
    (count : Option (Ref σ Nat)) (w : Nat) (dflt : E) (elem : ElemMapper E) :
    Mapper σ :=
  match target with
  | none => nilMapping
  | some tr =>
    match count with
    | none => nilMapping
    | some cr =>
      { read := fun s e st =>
          match (Size w (some cr)).read s e st with
          | ⟨s1, rest, .ok⟩ => (Slice (some tr) (cr.get s1) dflt elem).read s1 e rest
          | other => other
        write := fun s e =>
          let pre := (Size w (some cr)).write s e
          let post := (Slice (some tr) (cr.get s) dflt elem).write s e
          ⟨s, pre.written ++ post.written, post.out⟩ }

/-- `DynamicSlice[E]`: `LenSlice` with a transient local 32-bit count —
derived from the current slice length on write, never stored in `σ`. -/
def DynamicSlice {σ E : Type} (target : Option (Ref σ (List E))) (dflt : E)
    (elem : ElemMapper E) : Mapper σ :=
  match target with
  | none => nilMapping
  | some tr =>
    { read := fun s e st =>
        match readBytesExact 4 st with
        | .error err => ⟨s, st.drop 4, .fail err⟩
        | .ok (bs, rest) => (Slice (some tr) (decUint e bs) dflt elem).read s e rest
      write := fun s e =>
        let length := (tr.get s).length % 2 ^ 32
        let post := (Slice (some tr) length dflt elem).write s e
        ⟨s, encUint e 4 length ++ post.written, post.out⟩ }

/-! ### The associative mapper (`maps.go`)

A Go `map[K]V` is modelled as an association list without duplicate keys;
`range` order is unspecified in Go, so theorems quantify over the entry
order. -/

/-- `m[key] = val` on the association-list model: replace the value in
place if the key is present, append otherwise. -/
def mapInsert {K V : Type} [DecidableEq K] (m : List (K × V)) (k : K) (v : V) :
    List (K × V) :=
  if m.any (fun p => decide (p.1 = k)) then
    m.map (fun p => if p.1 = k then (k, v) else p)
  else m ++ [(k, v)]

/-- The entry loop of `Map.read`: read `n` key/value pairs into a fresh
local map, inserting each as it is decoded. -/
def mapReadAux {K V : Type} [DecidableEq K] (keyM : ElemMapper K)
    (valM : ElemMapper V) (kd : K) (vd : V) :
    Nat → List (K × V) → Endian → List Nat → List (K × V) × List Nat × Outcome
  | 0, m, _, st => (m, st, .ok)
  | n + 1, m, e, st =>
    match keyM.read kd e st with
    | (k, st1, .ok) =>
      match valM.read vd e st1 with
      | (v, st2, .ok) => mapReadAux keyM valM kd vd n (mapInsert m k v) e st2
      | (_, st2, o) => (m, st2, o)
    | (_, st1, o) => (m, st1, o)

/-- The entry loop of `Map.write`: each key followed immediately by its
value, stopping at the first failure. -/
def mapWriteAux {K V : Type} (keyM : ElemMapper K) (valM : ElemMapper V) :
    List (K × V) → Endian → List Nat × Outcome
  | [], _ => ([], .ok)
  | (k, v) :: rest, e =>
    match keyM.write k e with
    | (bs1, .ok) =>
      match valM.write v e with
      | (bs2, .ok) =>
          let (bs3, o) := mapWriteAux keyM valM rest e
          (bs1 ++ bs2 ++ bs3, o)
      | (bs2, o) => (bs1 ++ bs2, o)
    | (bs1, o) => (bs1, o)

/-- `Map[K, V]`: a 32-bit entry count, then `count` interleaved key/value
pairs.  Read builds a fresh empty map and assigns the target only after
all pairs decoded; write derives the count from the current size. -/
def Map {σ K V : Type} [DecidableEq K] (target : Option (Ref σ (List (K × V))))
    (kd : K) (vd : V) (keyM : ElemMapper K) (valM : ElemMapper V) : Mapper σ :=
  match target with
  | none => nilMapping
  | some r =>
    { read := fun s e st =>
        match readBytesExact 4 st with
        | .error err => ⟨s, st.drop 4, .fail err⟩
        | .ok (bs, rest) =>
          match mapReadAux keyM valM kd vd (decUint e bs) [] e rest with
          | (m, st1, .ok) => ⟨r.set m s, st1, .ok⟩
          | (_, st1, o) => ⟨s, st1, o⟩
      write := fun s e =>
        let entries := r.get s
        let (bs, o) := mapWriteAux keyM valM entries e
        ⟨s, encUint e 4 (entries.length % 2 ^ 32) ++ bs, o⟩ }

/-! ## The tabular mapper (`datatable.go`)

A `FieldMapper` built by `MapField(target, mapFn)` is a `Column`: the
column's target slice, the Go zero value of the element type and the
element mapper.  The `fieldReader`'s scratch buffer starts empty and the
`fieldWriter`'s write pointer starts at 0, exactly as `MapField`
initializes them; the loops below thread them explicitly.  (The capacity
doubling of `readNext` only ever copies the buffer, so the model keeps
just its contents.) -/

/-- One `FieldMapper` column: `MapField(target, mapFn)`. -/
structure Column (σ E : Type) where
  target : Ref σ (List E)
  dflt : E
  elem : ElemMapper E

/-- `fieldReader.readNext`: decode one fresh element and append it to the
scratch buffer; a failure leaves the buffer as it was. -/
def readNext {σ E : Type} (c : Column σ E) (buf : List E) (e : Endian)
    (st : List Nat) : List E × List Nat × Outcome :=
  match c.elem.read c.dflt e st with
  | (t, st1, .ok) => (buf ++ [t], st1, .ok)
  | (_, st1, o) => (buf, st1, o)

/-- One row of `DataTable.read`: `readNext` on each column in declared
order, stopping at the first failure. -/
def readRowAux {σ E : Type} (e : Endian) :
    List (Column σ E × List E) → List Nat →
    List (Column σ E × List E) × List Nat × Outcome
  | [], st => ([], st, .ok)
  | (c, buf) :: rest, st =>
    match readNext c buf e st with
    | (buf1, st1, .ok) =>
        let (rest1, st2, o) := readRowAux e rest st1
        ((c, buf1) :: rest1, st2, o)
    | (buf1, st1, o) => ((c, buf1) :: rest, st1, o)

/-- The row loop of `DataTable.read`. -/
def readRows {σ E : Type} (e : Endian) :
    Nat → List (Column σ E × List E) → List Nat →
    List (Column σ E × List E) × List Nat × Outcome
  | 0, cbs, st => (cbs, st, .ok)
  | n + 1, cbs, st =>
    match readRowAux e cbs st with
    | (cbs1, st1, .ok) => readRows e n cbs1 st1
    | (cbs1, st1, o) => (cbs1, st1, o)

/-- `fieldReader.apply` over every column: replace each target's storage
with its scratch buffer's contents. -/
def applyAll {σ E : Type} (cbs : List (Column σ E × List E)) (s : σ) : σ :=
  cbs.foldl (fun s1 cb => cb.1.target.set cb.2 s1) s

/-- `fieldWriter.assertLen`: compare the column length, converted to
`uint32` exactly as `uint32(len(*fw.target))` does, with the declared row
count. -/
def assertLen {σ E : Type} (c : Column σ E) (s : σ) (l : Nat) : Option Err :=
  if (c.target.get s).length % 2 ^ 32 ≠ l then some .unbalancedTable else none

/-- The assertion loop at the top of `DataTable.write`. -/
def assertAll {σ E : Type} (s : σ) (l : Nat) : List (Column σ E) → Option Err
  | [] => none
  | c :: rest =>
    match assertLen c s l with
    | some err => some err
    | none => assertAll s l rest

/-- `fieldWriter.writeNext`: write the element under the `uint32` write
pointer (via the copy `fieldWriter.next` takes) and advance it, or fail
with the end-of-buffer error. -/
def writeNext {σ E : Type} (c : Column σ E) (s : σ) (wr : Nat) (e : Endian) :
    List Nat × Nat × Outcome :=
  if wr % 2 ^ 32 < (c.target.get s).length % 2 ^ 32 then
    match c.elem.write ((c.target.get s).getD (wr % 2 ^ 32) c.dflt) e with
    | (bs, .ok) => (bs, wr + 1, .ok)
    | (bs, o) => (bs, wr, o)
  else ([], wr, .fail .endOfWriteBuffer)

/-- One row of `DataTable.write`: `writeNext` on each column in declared
order, stopping at the first failure but keeping flushed bytes. -/
def writeRowAux {σ E : Type} (s : σ) (e : Endian) :
    List (Column σ E × Nat) → List (Column σ E × Nat) × List Nat × Outcome
  | [] => ([], [], .ok)
  | (c, wr) :: rest =>
    match writeNext c s wr e with
    | (bs, wr1, .ok) =>
        let (rest1, bs2, o) := writeRowAux s e rest
        ((c, wr1) :: rest1, bs ++ bs2, o)
    | (bs, wr1, o) => ((c, wr1) :: rest, bs, o)

/-- The row loop of `DataTable.write`. -/
def writeRows {σ E : Type} (s : σ) (e : Endian) :
    Nat → List (Column σ E × Nat) → List (Column σ E × Nat) × List Nat × Outcome
  | 0, cws => (cws, [], .ok)
  | n + 1, cws =>
    match writeRowAux s e cws with
    | (cws1, bs, .ok) =>
        let (cws2, bs2, o) := writeRows s e n cws1
        (cws2, bs ++ bs2, o)
    | (cws1, bs, o) => (cws1, bs, o)

/-- `DataTable.read` over a non-nil row-count field: read the 32-bit row
count into the field, decode `*length` rows column by column into the
scratch buffers, and only on full success `apply` every buffer to its
target column. -/
def dataTableRead {σ E : Type} (lref : Ref σ Nat) (cols : List (Column σ E))
    (s : σ) (e : Endian) (st : List Nat) : RResult σ :=
  match readBytesExact 4 st with
  | .error err => ⟨s, st.drop 4, .fail err⟩
  | .ok (bs, rest) =>
    let s1 := lref.set (decUint e bs) s
    let l := lref.get s1
    match readRows e l (cols.map (fun c => (c, []))) rest with
    | (cbs, st1, .ok) => ⟨applyAll cbs s1, st1, .ok⟩
    | (_, st1, o) => ⟨s1, st1, o⟩

/-- `DataTable.write` over a non-nil row-count field: assert every
column's `uint32` length equals the current `*length` before writing
anything, then write the count and `l` row-major rows.  (`*length` is a
`uint32`, so its value is `< 2 ^ 32` in every reachable state.) -/
def dataTableWrite {σ E : Type} (lref : Ref σ Nat) (cols : List (Column σ E))
    (s : σ) (e : Endian) : WResult σ :=
  let l := lref.get s
  match assertAll s l cols with
  | some err => ⟨s, [], .fail err⟩
  | none =>
    let (_, bs, o) := writeRows s e l (cols.map (fun c => (c, 0)))
    ⟨s, encUint e 4 l ++ bs, o⟩

/-- `DataTable`: the tabular mapper; a nil row-count field yields the
sentinel mapper. -/
def DataTable {σ E : Type} (length : Option (Ref σ Nat))
    (cols : List (Column σ E)) : Mapper σ :=
  match length with
  | none => nilMapping
  | some lref => ⟨dataTableRead lref cols, dataTableWrite lref cols⟩

/-! ## The variable-length integer codec (`binary.PutUvarint` et al.)

`binary.PutUvarint` fills a `MaxVarintLen64 = 10` byte buffer; the fuel
below is that buffer bound (never reached for `uint64` values). -/

/-- `binary.MaxVarintLen64`. -/
def MaxVarintLen64 : Nat := 10

/-- The loop of `binary.PutUvarint`: while `x >= 0x80` emit
`byte(x) | 0x80` and shift by 7; finally emit `byte(x)`. -/
def putUvarintAux : Nat → Nat → List Nat
  | 0, _ => []
  | fuel + 1, x =>
    if 128 ≤ x then (x % 256 ||| 128) :: putUvarintAux fuel (x / 128)
    else [x % 256]

/-- `binary.PutUvarint` (the bytes it fills, in order). -/
def putUvarint (x : Nat) : List Nat :=
  putUvarintAux MaxVarintLen64 x

/-- `uint64(x) << 1`, complemented for negative `x`: the zig-zag remap of
`binary.PutVarint`. -/
def zigzagEncode (x : ℤ) : Nat :=
  let u := (x % (2 ^ 64 : ℤ)).toNat
  let ux := u * 2 % 2 ^ 64
  if x < 0 then 2 ^ 64 - 1 - ux else ux

/-- `binary.PutVarint`: zig-zag remap, then the unsigned encoding. -/
def putVarint (x : ℤ) : List Nat :=
  putUvarint (zigzagEncode x)

/-- The loop of `binary.ReadUvarint`: up to `MaxVarintLen64` single-byte
reads, accumulating 7 payload bits per byte; the result carries the
remaining stream also on failure. -/
def readUvarintAux : Nat → Nat → Nat → List Nat → Except Err Nat × List Nat
  | 0, _, _, st => (.error .overflow, st)
  | fuel + 1, _, _, [] =>
    ((.error (if fuel + 1 = MaxVarintLen64 then Err.eof else Err.unexpectedEOF)), [])
  | fuel + 1, x, s, b :: rest =>
    if b < 128 then
      if fuel = 0 ∧ 1 < b then (.error .overflow, rest)
      else (.ok (x ||| b <<< s), rest)
    else readUvarintAux fuel (x ||| (b &&& 127) <<< s) (s + 7) rest

/-- `binary.ReadUvarint`. -/
def readUvarint (st : List Nat) : Except Err Nat × List Nat :=
  readUvarintAux MaxVarintLen64 0 0 st

/-- `int64(ux >> 1)`, complemented when `ux & 1` is set: the zig-zag
decode of `binary.ReadVarint` (the shifted value is `< 2 ^ 63`, hence
non-negative as an `int64`, and `^x = -x - 1`). -/
def zigzagDecode (ux : Nat) : ℤ :=
  let x : ℤ := (ux >>> 1 : Nat)
  if ux &&& 1 ≠ 0 then -x - 1 else x

/-- `Varint`: variable-length signed 64-bit integers.  The byte-order
policy is never consulted (`buf[:n]` is written as raw bytes). -/
def Varint {σ : Type} (target : Option (Ref σ ℤ)) : Mapper σ :=
  match target with
  | none => nilMapping
  | some r =>
    { read := fun s _ st =>
        match readUvarint st with
        | (.ok ux, rest) => ⟨r.set (zigzagDecode ux) s, rest, .ok⟩
        | (.error err, rest) => ⟨s, rest, .fail err⟩
      write := fun s _ => ⟨s, putVarint (r.get s), .ok⟩ }

/-- `Uvarint`: variable-length unsigned 64-bit integers.  The byte-order
policy is never consulted. -/
def Uvarint {σ : Type} (target : Option (Ref σ Nat)) : Mapper σ :=
  match target with
  | none => nilMapping
  | some r =>
    { read := fun s _ st =>
        match readUvarint st with
        | (.ok ux, rest) => ⟨r.set ux s, rest, .ok⟩
        | (.error err, rest) => ⟨s, rest, .fail err⟩
      write := fun s _ => ⟨s, putUvarint (r.get s), .ok⟩ }

/-! ## Lifecycle and failure-isolation wrappers (`subjects.go`) -/

/-- The `EventHandler` hook set.  A Go hook is a closure over ambient
state: a `Before*` hook maps the state to a new state and an optional
error; an `After*` hook additionally receives the inner operation's
error value. -/
structure EventHandler (σ : Type) where
  BeforeRead : Option (σ → σ × Option Err) := none
  AfterRead : Option (σ → Option Err → σ × Option Err) := none
  BeforeWrite : Option (σ → σ × Option Err) := none
  AfterWrite : Option (σ → Option Err → σ × Option Err) := none

/-- Lift an optional hook error to an outcome. -/
def outcomeOfOpt : Option Err → Outcome
  | none => .ok
  | some e => .fail e

/-- `EventHandler.Read`: run `BeforeRead` (its error short-circuits before
the inner read and before the `AfterRead` defer is registered); run the
inner read; the deferred `AfterRead` always runs on the inner value
(receiving the inner error, or `nil` while unwinding a panic) and its
result replaces the returned error only when the inner error was nil. -/
def ehRead {σ : Type} (inner : Mapper σ) (h : EventHandler σ) (s : σ)
    (e : Endian) (st : List Nat) : RResult σ :=
  match (match h.BeforeRead with | none => (s, none) | some f => f s) with
  | (s1, some err) => ⟨s1, st, .fail err⟩
  | (s1, none) =>
    let r := inner.read s1 e st
    match h.AfterRead with
    | none => r
    | some f =>
      match r.out with
      | .fail err => ⟨(f r.state (some err)).1, r.rest, .fail err⟩
      | .ok => ⟨(f r.state none).1, r.rest, outcomeOfOpt (f r.state none).2⟩
      | .panicked v => ⟨(f r.state none).1, r.rest, .panicked v⟩

/-- `EventHandler.Write`: the mirror image of `EventHandler.Read`. -/
def ehWrite {σ : Type} (inner : Mapper σ) (h : EventHandler σ) (s : σ)
    (e : Endian) : WResult σ :=
  match (match h.BeforeWrite with | none => (s, none) | some f => f s) with
  | (s1, some err) => ⟨s1, [], .fail err⟩
  | (s1, none) =>
    let r := inner.write s1 e
    match h.AfterWrite with
    | none => r
    | some f =>
      match r.out with
      | .fail err => ⟨(f r.state (some err)).1, r.written, .fail err⟩
      | .ok => ⟨(f r.state none).1, r.written, outcomeOfOpt (f r.state none).2⟩
      | .panicked v => ⟨(f r.state none).1, r.written, .panicked v⟩

/-- `NewEventHandler`: wrap a mapper with the given hooks; a nil inner
mapper yields the sentinel mapper. -/
def NewEventHandler {σ : Type} (m : Option (Mapper σ)) (h : EventHandler σ) :
    Mapper σ :=
  match m with
  | none => nilMapping
  | some inner => ⟨ehRead inner h, ehWrite inner h⟩

/-- `ValidateRead`: sugar for an `AfterRead`-only event handler. -/
def ValidateRead {σ : Type} (m : Option (Mapper σ))
    (validator : σ → Option Err → σ × Option Err) : Mapper σ :=
  NewEventHandler m { AfterRead := some validator }

/-- `NormalizeWrite`: sugar for a `BeforeWrite`-only event handler. -/
def NormalizeWrite {σ : Type} (m : Option (Mapper σ))
    (normalizer : σ → σ × Option Err) : Mapper σ :=
  NewEventHandler m { BeforeWrite := some normalizer }

/-- `_panicHandler`: the error produced for a recovered panic payload —
`ErrPanic` when the caller's handler is absent or returns nil, `ErrPanic`
wrapping the handler's error otherwise. -/
def panicHandlerErr (v : Nat) (handler : Option (Nat → Option Err)) : Err :=
  match (match handler with | none => none | some f => f v) with
  | none => .panicErr
  | some rerr => .panicWrapped rerr

/-- `OnPanic`: recover a panic from the inner read or write and return it
as an ordinary error via `panicHandlerErr`; a non-panicking inner result
passes through unchanged. -/
def OnPanic {σ : Type} (m : Mapper σ) (handler : Option (Nat → Option Err)) :
    Mapper σ where
  read := fun s e st =>
    let r := m.read s e st
    match r.out with
    | .panicked v => ⟨r.state, r.rest, .fail (panicHandlerErr v handler)⟩
    | _ => r
  write := fun s e =>
    let r := m.write s e
    match r.out with
    | .panicked v => ⟨r.state, r.written, .fail (panicHandlerErr v handler)⟩
    | _ => r

/-! ## Shared fixtures and auxiliary definitions for the claims -/

/-! ## Concrete fixtures for the `DataTable` claims -/

/-- The identity lens: a mapper applied directly to its own element slot. -/
def idRef (τ : Type) : Ref τ τ := ⟨id, fun v _ => v⟩

/-- The `ElemMapper` induced by a `func(*E) Mapper` factory built from the
library's own constructors: apply the factory's mapper to the single
element slot (the fresh element is the mapper state). -/
def elemOfMapper {E : Type} (fn : Option (Ref E E) → Mapper E) : ElemMapper E where
  read := fun t e st =>
    let r := (fn (some (idRef E))).read t e st
    (r.state, r.rest, r.out)
  write := fun t e =>
    let w := (fn (some (idRef E))).write t e
    (w.written, w.out)

/-- `MapField(&col, Byte)`'s element mapper. -/
def byteElem : ElemMapper Nat := elemOfMapper Byte

/-- A concrete state for witnesses: a `uint32` row-count field and two
byte-slice columns. -/
abbrev TblState := Nat × List Nat × List Nat

def tLenRef : Ref TblState Nat := ⟨fun p => p.1, fun v p => (v, p.2)⟩

def tColARef : Ref TblState (List Nat) := ⟨fun p => p.2.1, fun v p => (p.1, v, p.2.2)⟩

def tColBRef : Ref TblState (List Nat) := ⟨fun p => p.2.2, fun v p => (p.1, p.2.1, v)⟩

def tColA : Column TblState Nat := ⟨tColARef, 0, byteElem⟩

def tColB : Column TblState Nat := ⟨tColBRef, 0, byteElem⟩

/-- The row-count field of a table state whose single column holds
zero-sized elements. -/
def u32LenRef : Ref (Nat × List Unit) Nat := ⟨fun p => p.1, fun v p => (v, p.2)⟩

/-- A column of zero-sized elements whose element mapper moves no bytes. -/
def unitCol : Column (Nat × List Unit) Unit :=
  ⟨⟨fun p => p.2, fun v p => (p.1, v)⟩, (),
    ⟨fun t _ st => (t, st, .ok), fun _ _ => ([], .ok)⟩⟩

/-- An element mapper faithfully round-trips its type: every write
succeeds and reading the written bytes back yields the element and the
untouched remainder. -/
def RoundTrips {T : Type} (m : ElemMapper T) (dflt : T) (e : Endian) : Prop :=
  ∀ t rest, (m.write t e).2 = .ok ∧
    m.read dflt e ((m.write t e).1 ++ rest) = (t, rest, .ok)

/-- First-match lookup in the association-list model of a Go map. -/
def mapLookup {K V : Type} [DecidableEq K] : List (K × V) → K → Option V
  | [], _ => none
  | (k1, v1) :: rest, k => if k1 = k then some v1 else mapLookup rest k

/-- The element mapper `Bool` induces on a single boolean slot. -/
def boolElem : ElemMapper Boolean := elemOfMapper Bool

/-- A unary prefix code for arbitrary naturals: `n` one-bytes then a
zero byte.  A faithful (round-tripping) element mapper usable for keys of
unbounded range. -/
def unaryReadAux : Nat → List Nat → Nat × List Nat × Outcome
  | acc, [] => (acc, [], .fail .eof)
  | acc, b :: rest => if b = 0 then (acc, rest, .ok) else unaryReadAux (acc + 1) rest

def natUnaryElem : ElemMapper Nat where
  read := fun _ _ st => unaryReadAux 0 st
  write := fun n _ => (List.replicate n 1 ++ [0], .ok)

/-! ## Claim C5 — nil-target sentinel (corrected: `Complex` is the exception) -/

/-- C5 (as stated, refuted): the claim includes `Complex` among the
constructors that return the sentinel error mapper on a nil target, but
`Complex` performs no nil check — it hands the nil pointer to the binary
transcoder, whose read fails with an "invalid type" error, not with
`ErrNilReadWrite`. -/
theorem claim_C5_counterexample :
    (Complex 4 (none : Option (Ref Unit (Nat × Nat)))).read () Endian.big [] ≠
      ⟨(), [], .fail .nilReadWrite⟩ := by
  decide

/-- C5 (amended): every listed constructor except `Complex` returns the
sentinel error mapper on a nil target, whose Read and Write
unconditionally return `ErrNilReadWrite` without touching state or
stream; `Complex` performs no nil check, and its read and write instead
fail with the transcoder's invalid-type error, likewise without
performing any I/O. -/
theorem claim_C5_nil_target_sentinel {σ E K V : Type} [DecidableEq K]
    (w L : Nat) (dflt : E) (elem : ElemMapper E) (kd : K) (vd : V)
    (keyM : ElemMapper K) (valM : ElemMapper V) (cols : List (Column σ E))
    (br : Ref σ (List Nat)) (tr : Ref σ (List E)) (s : σ) (e : Endian)
    (st : List Nat) :
    (nilMapping.read s e st = ⟨s, st, .fail .nilReadWrite⟩ ∧
     nilMapping.write s e = ⟨s, [], .fail .nilReadWrite⟩) ∧
    (Byte (none : Option (Ref σ Nat)) = nilMapping ∧
     Bool (none : Option (Ref σ Boolean)) = nilMapping ∧
     Int w (none : Option (Ref σ Nat)) = nilMapping ∧
     Float w (none : Option (Ref σ Nat)) = nilMapping ∧
     Size w (none : Option (Ref σ Nat)) = nilMapping ∧
     FixedString (none : Option (Ref σ (List Nat))) L = nilMapping ∧
     NullTermString (none : Option (Ref σ (List Nat))) = nilMapping ∧
     Uni16NullTermString (none : Option (Ref σ (List Nat))) = nilMapping ∧
     Uni16FixedString (none : Option (Ref σ (List Nat))) L = nilMapping ∧
     FixedBytes (none : Option (Ref σ (List Nat))) L = nilMapping ∧
     LenBytes (none : Option (Ref σ (List Nat))) (none : Option (Ref σ Nat)) w = nilMapping ∧
     LenBytes (some br) (none : Option (Ref σ Nat)) w = nilMapping ∧
     Slice (none : Option (Ref σ (List E))) L dflt elem = nilMapping ∧
     LenSlice (none : Option (Ref σ (List E))) (none : Option (Ref σ Nat)) w dflt elem = nilMapping ∧
     LenSlice (some tr) (none : Option (Ref σ Nat)) w dflt elem = nilMapping ∧
     DynamicSlice (none : Option (Ref σ (List E))) dflt elem = nilMapping ∧
     Map (none : Option (Ref σ (List (K × V)))) kd vd keyM valM = nilMapping ∧
     DataTable (none : Option (Ref σ Nat)) cols = nilMapping ∧
     Varint (none : Option (Ref σ ℤ)) = nilMapping ∧
     Uvarint (none : Option (Ref σ Nat)) = nilMapping) ∧
    (Complex w (none : Option (Ref σ (Nat × Nat))) = invalidTypeMapping ∧
     invalidTypeMapping.read s e st = ⟨s, st, .fail .invalidType⟩ ∧
     invalidTypeMapping.write s e = ⟨s, [], .fail .invalidType⟩) := by
  exact ⟨⟨rfl, rfl⟩,
    ⟨rfl, rfl, rfl, rfl, rfl, rfl, rfl, rfl, rfl, rfl, rfl, rfl, rfl, rfl,
     rfl, rfl, rfl, rfl, rfl, rfl⟩,
    ⟨rfl, rfl, rfl⟩⟩

/-! ## Claim C8 — `OnPanic` failure isolation (confirmed) -/

/-- C8: `OnPanic` converts a panic from the inner read or write into an
ordinary error — exactly `ErrPanic` when the handler is absent or returns
nil, `ErrPanic` wrapping the handler's error otherwise — and passes a
non-panicking inner result through unchanged. -/
theorem claim_C8_onPanic {σ : Type} (m : Mapper σ) (handler : Option (Nat → Option Err))
    (f : Nat → Option Err) (s : σ) (e : Endian) (st : List Nat) (v : Nat) :
    (panicHandlerErr v none = .panicErr) ∧
    (f v = none → panicHandlerErr v (some f) = .panicErr) ∧
    (∀ err, f v = some err → panicHandlerErr v (some f) = .panicWrapped err) ∧
    ((m.read s e st).out = .panicked v →
      (OnPanic m handler).read s e st =
        ⟨(m.read s e st).state, (m.read s e st).rest,
          .fail (panicHandlerErr v handler)⟩) ∧
    ((∀ u, (m.read s e st).out ≠ .panicked u) →
      (OnPanic m handler).read s e st = m.read s e st) ∧
    ((m.write s e).out = .panicked v →
      (OnPanic m handler).write s e =
        ⟨(m.write s e).state, (m.write s e).written,
          .fail (panicHandlerErr v handler)⟩) ∧
    ((∀ u, (m.write s e).out ≠ .panicked u) →
      (OnPanic m handler).write s e = m.write s e) := by
  refine ⟨rfl, ?_, ?_, ?_, ?_, ?_, ?_⟩
  · intro h; simp [panicHandlerErr, h]
  · intro err h; simp [panicHandlerErr, h]
  · intro h; simp only [OnPanic, h]
  · intro h; simp only [OnPanic]
  · intro h; simp only [OnPanic, h]
  · intro h; simp only [OnPanic]

/-- C8 witness: a concrete panicking mapper, with and without a handler. -/
theorem claim_C8_onPanic_witness :
    (OnPanic (⟨fun s _ st => ⟨s, st, .panicked 3⟩, fun s _ => ⟨s, [], .panicked 3⟩⟩ : Mapper Nat)
        (some fun _ => some (.custom 7))).read 0 Endian.big [] =
      ⟨0, [], .fail (.panicWrapped (.custom 7))⟩ ∧
    (OnPanic (⟨fun s _ st => ⟨s, st, .panicked 3⟩, fun s _ => ⟨s, [], .panicked 3⟩⟩ : Mapper Nat)
        none).write 0 Endian.big = ⟨0, [], .fail .panicErr⟩ := by
  constructor
  · exact (claim_C8_onPanic _ (some fun _ => some (.custom 7)) (fun _ => some (.custom 7))
      0 Endian.big [] 3).2.2.2.1 rfl
  · exact (claim_C8_onPanic _ none (fun _ => none) 0 Endian.big [] 3).2.2.2.2.2.1 rfl

/-! ## Claim C1 — `After*` hook error precedence (confirmed) -/

/-- C1: for an event-handler-wrapped mapper, on both Read and Write: when
the inner operation fails, the inner error is returned even though the
`After*` hook runs (its state effect at the inner error is applied — the
final state is `(f s1 (some err)).1` — but its returned error is
discarded); when the inner operation succeeds, the hook runs on `nil`
and its returned error becomes the final outcome.  `ValidateRead` and
`NormalizeWrite` are definitionally this wrapper with only the
`AfterRead` (resp. `BeforeWrite`) hook set. -/
theorem claim_C1_after_hook_precedence {σ : Type} (inner : Mapper σ)
    (f g : σ → Option Err → σ × Option Err) (n : σ → σ × Option Err)
    (s s1 : σ) (e : Endian) (st r1 w1 : List Nat) :
    (∀ err, inner.read s e st = ⟨s1, r1, .fail err⟩ →
      (NewEventHandler (some inner) { AfterRead := some f }).read s e st =
        ⟨(f s1 (some err)).1, r1, .fail err⟩) ∧
    (inner.read s e st = ⟨s1, r1, .ok⟩ →
      (NewEventHandler (some inner) { AfterRead := some f }).read s e st =
        ⟨(f s1 none).1, r1, outcomeOfOpt (f s1 none).2⟩) ∧
    (∀ err, inner.write s e = ⟨s1, w1, .fail err⟩ →
      (NewEventHandler (some inner) { AfterWrite := some g }).write s e =
        ⟨(g s1 (some err)).1, w1, .fail err⟩) ∧
    (inner.write s e = ⟨s1, w1, .ok⟩ →
      (NewEventHandler (some inner) { AfterWrite := some g }).write s e =
        ⟨(g s1 none).1, w1, outcomeOfOpt (g s1 none).2⟩) ∧
    (ValidateRead (some inner) f = NewEventHandler (some inner) { AfterRead := some f }) ∧
    (NormalizeWrite (some inner) n = NewEventHandler (some inner) { BeforeWrite := some n }) := by
  refine ⟨?_, ?_, ?_, ?_, rfl, rfl⟩
  · intro err h
    simp only [NewEventHandler, ehRead, h]
  · intro h
    simp only [NewEventHandler, ehRead, h]
  · intro err h
    simp only [NewEventHandler, ehWrite, h]
  · intro h
    simp only [NewEventHandler, ehWrite, h]

/-- C1 witness: a concrete inner mapper that fails with `custom 7` while
the `AfterRead` hook returns `custom 9`: the inner error wins, and the
hook's state effect shows it received `some (custom 7)`; on the write
side the inner mapper succeeds, so the hook's error becomes the
result. -/
theorem claim_C1_after_hook_precedence_witness :
    (NewEventHandler
        (some (⟨fun s _ st => ⟨s + 1, st, .fail (.custom 7)⟩,
                fun s _ => ⟨s + 1, [2], .ok⟩⟩ : Mapper Nat))
        { AfterRead := some fun s oe =>
            (s * 10 + (match oe with | some _ => 1 | none => 0), some (.custom 9)) }).read
      0 Endian.big [5] = ⟨11, [5], .fail (.custom 7)⟩ ∧
    (NewEventHandler
        (some (⟨fun s _ st => ⟨s + 1, st, .fail (.custom 7)⟩,
                fun s _ => ⟨s + 1, [2], .ok⟩⟩ : Mapper Nat))
        { AfterWrite := some fun s _ => (s, some (.custom 9)) }).write
      0 Endian.big = ⟨1, [2], .fail (.custom 9)⟩ := by
  constructor
  · exact (claim_C1_after_hook_precedence _ _
      (fun s _ => (s, some (.custom 9))) (fun s => (s, none)) 0 1 Endian.big [5] [5] [2]).1
      (.custom 7) rfl
  · exact (claim_C1_after_hook_precedence
      (⟨fun s _ st => ⟨s + 1, st, .fail (.custom 7)⟩, fun s _ => ⟨s + 1, [2], .ok⟩⟩ : Mapper Nat)
      (fun s oe => (s * 10 + (match oe with | some _ => 1 | none => 0), some (.custom 9)))
      (fun s _ => (s, some (.custom 9))) (fun s => (s, none)) 0 1 Endian.big [5] [5] [2]).2.2.2.1 rfl

/-! ## Claim C6 — `FixedString` truncation and trailing-zero stripping
(confirmed) -/

theorem dropWhile_replicate_zero_append (p : Nat → Boolean) (k : Nat) (l : List Nat)
    (h : p 0 = true) :
    List.dropWhile p (List.replicate k 0 ++ l) = List.dropWhile p l := by
  induction k with
  | zero => simp
  | succ n ih => simp [List.replicate_succ, List.dropWhile_cons, h, ih]

theorem trimTrailingZeros_append_replicate (pre : List Nat) (k : Nat)
    (h : pre.getLast? ≠ some 0) :
    trimTrailingZeros (pre ++ List.replicate k 0) = pre := by
  unfold trimTrailingZeros
  rw [List.reverse_append, List.reverse_replicate,
    dropWhile_replicate_zero_append _ _ _ (by simp)]
  cases hp : pre.reverse with
  | nil =>
    have : pre = [] := by simpa using congrArg List.reverse hp
    simp [this]
  | cons a t =>
    have ha : a ≠ 0 := by
      intro h0
      apply h
      rw [← List.head?_reverse, hp, h0]
      rfl
    rw [List.dropWhile_cons]
    simp only [ha, beq_iff_eq, if_false, ← hp, List.reverse_reverse]

/-- C6: `FixedString(&s, L).Write` writes exactly `L` bytes — the first
`min (|s|) L` bytes of the string followed by zero padding — and returns
no error even when the string exceeds `L` bytes (silent truncation);
`Read` consumes exactly `L` bytes and stores them with all trailing zero
bytes stripped (non-trailing embedded zeros are kept, as the last
conjunct makes precise). -/
theorem claim_C6_fixedString {σ : Type} (r : Ref σ (List Nat)) (L : Nat)
    (s s2 : σ) (e : Endian) (st : List Nat) :
    ((FixedString (some r) L).write s e =
      ⟨s, (r.get s).take L ++ List.replicate (L - (r.get s).length) 0, .ok⟩) ∧
    (((FixedString (some r) L).write s e).written.length = L) ∧
    ((r.get s).take L = (r.get s).take (min (r.get s).length L)) ∧
    (L ≤ st.length →
      (FixedString (some r) L).read s2 e st =
        ⟨r.set (trimTrailingZeros (st.take L)) s2, st.drop L, .ok⟩) ∧
    (∀ (pre : List Nat) (k : Nat), pre.getLast? ≠ some 0 →
      trimTrailingZeros (pre ++ List.replicate k 0) = pre) := by
  refine ⟨rfl, ?_, ?_, ?_, trimTrailingZeros_append_replicate⟩
  · show (copyPad L (r.get s)).length = L
    simp only [copyPad, List.length_append, List.length_take, List.length_replicate]
    omega
  · rcases le_total L (r.get s).length with h | h
    · rw [min_eq_right h]
    · rw [min_eq_left h, List.take_of_length_le h, List.take_length]
  · intro h
    simp only [FixedString, readBytesExact, h, if_pos]

/-- C6 witness: the repository's own `FixedString` test vector,
`"Hi\x00you"` at length 8, written and read back. -/
theorem claim_C6_fixedString_witness :
    ((FixedString (some (⟨id, fun v _ => v⟩ : Ref (List Nat) (List Nat))) 8).write
        [72, 105, 0, 121, 111, 117] Endian.big).written =
      [72, 105, 0, 121, 111, 117, 0, 0] ∧
    (FixedString (some (⟨id, fun v _ => v⟩ : Ref (List Nat) (List Nat))) 8).read
        [] Endian.big [72, 105, 0, 121, 111, 117, 0, 0] =
      ⟨[72, 105, 0, 121, 111, 117], [], .ok⟩ := by
  constructor
  · rw [(claim_C6_fixedString ⟨id, fun v _ => v⟩ 8 [72, 105, 0, 121, 111, 117] []
      Endian.big []).1]
    decide
  · rw [(claim_C6_fixedString (⟨id, fun v _ => v⟩ : Ref (List Nat) (List Nat)) 8
      [72, 105, 0, 121, 111, 117] [] Endian.big
      [72, 105, 0, 121, 111, 117, 0, 0]).2.2.2.1 (by decide)]
    decide

/-! ## Claim C2 — balanced-table check before any byte is written
(corrected: the comparison happens at `uint32` width) -/

theorem assertAll_of_mem {σ E : Type} (s : σ) (l : Nat) (cols : List (Column σ E))
    (c : Column σ E) (hc : c ∈ cols)
    (hmis : (c.target.get s).length % 2 ^ 32 ≠ l) :
    assertAll s l cols = some .unbalancedTable := by
  induction cols with
  | nil => cases hc
  | cons c0 rest ih =>
    rcases List.mem_cons.mp hc with rfl | hc2
    · simp only [assertAll, assertLen, if_pos hmis]
    · simp only [assertAll, assertLen]
      by_cases h0 : (c0.target.get s).length % 2 ^ 32 ≠ l
      · simp only [if_pos h0]
      · simp only [if_neg h0]
        exact ih hc2

theorem dataTableWrite_unitCol_two_pow_32 (l : List Unit)
    (hl : l.length = 2 ^ 32) :
    (DataTable (some u32LenRef) [unitCol]).write (0, l) Endian.big =
      ⟨(0, l), [0, 0, 0, 0], .ok⟩ := by
  have h1 : assertAll ((0, l) : Nat × List Unit) 0 [unitCol] = none := by
    simp [assertAll, assertLen, unitCol, hl]
  show dataTableWrite u32LenRef [unitCol] (0, l) Endian.big = _
  simp only [dataTableWrite]
  rw [show u32LenRef.get (0, l) = 0 from rfl, h1]
  rfl

/-- C2 (as stated, refuted): `fieldWriter.assertLen` compares
`uint32(len(*target))` with the `uint32` row count, so a column whose
length differs from `*length` by a multiple of `2^32` — here a
`2^32`-element column against a declared row count of `0` — passes the
assertion, and `Write` succeeds and emits the 4-byte count instead of
failing with `ErrUnbalancedTable` and writing nothing. -/
theorem claim_C2_counterexample :
    ((DataTable (some u32LenRef) [unitCol]).write
        (0, List.replicate (2 ^ 32) ()) Endian.big =
      ⟨(0, List.replicate (2 ^ 32) ()), [0, 0, 0, 0], .ok⟩) ∧
    (List.replicate (2 ^ 32) ()).length ≠ 0 := by
  constructor
  · exact dataTableWrite_unitCol_two_pow_32 (List.replicate (2 ^ 32) ())
      (List.length_replicate _ _)
  · rw [List.length_replicate]
    positivity

/-- C2 (amended): if at the start of `Write` any column's length,
truncated to `uint32` (`len % 2^32`), differs from the current value of
the `uint32` field `*length`, `Write` returns `ErrUnbalancedTable` and
writes zero bytes — the check over all columns precedes the first byte
written, including the row-count prefix. -/
theorem claim_C2_unbalanced_write {σ E : Type} (lref : Ref σ Nat)
    (cols : List (Column σ E)) (s : σ) (e : Endian) (c : Column σ E)
    (hc : c ∈ cols)
    (hmis : (c.target.get s).length % 2 ^ 32 ≠ lref.get s) :
    (DataTable (some lref) cols).write s e = ⟨s, [], .fail .unbalancedTable⟩ := by
  show dataTableWrite lref cols s e = _
  simp only [dataTableWrite, assertAll_of_mem s _ cols c hc hmis]

/-- C2 witness: a two-element column against a declared row count of 1. -/
theorem claim_C2_unbalanced_write_witness :
    (DataTable (some tLenRef) [tColA, tColB]).write (1, [5, 6], [7]) Endian.big =
      ⟨(1, [5, 6], [7]), [], .fail .unbalancedTable⟩ :=
  claim_C2_unbalanced_write tLenRef [tColA, tColB] (1, [5, 6], [7]) Endian.big
    tColA (by simp) (by decide)

/-! ## Claim C3 — `DataTable` read leaves target columns untouched on
failure (confirmed) -/

/-- C3: if `DataTable.read` returns an error — from the row-count prefix
or from any column element in any row — every target column still holds
exactly what it held before the call: decoded elements accumulate only
in the per-column scratch buffers, and targets are replaced (`apply`)
only after all rows succeeded.  The `indep` hypothesis says the columns'
targets are separate variables from the `uint32` row-count field, as Go's
types force. -/
theorem claim_C3_read_atomicity {σ E : Type} (lref : Ref σ Nat)
    (cols : List (Column σ E)) (s : σ) (e : Endian) (st : List Nat)
    (indep : ∀ c ∈ cols, ∀ v s0, c.target.get (lref.set v s0) = c.target.get s0) :
    ∀ err, ((DataTable (some lref) cols).read s e st).out = .fail err →
      ∀ c ∈ cols,
        c.target.get ((DataTable (some lref) cols).read s e st).state =
          c.target.get s := by
  intro err hout c hc
  show c.target.get (dataTableRead lref cols s e st).state = c.target.get s
  have hout2 : (dataTableRead lref cols s e st).out = .fail err := hout
  unfold dataTableRead at hout2 ⊢
  rcases h4 : readBytesExact 4 st with e4 | ⟨bs, rest⟩
  · rfl
  · rw [h4] at hout2
    simp only at hout2 ⊢
    rcases hr : readRows e (lref.get (lref.set (decUint e bs) s))
        (List.map (fun c => (c, ([] : List E))) cols) rest with ⟨cbs, st1, o⟩
    rw [hr] at hout2
    rcases o with _ | e2 | v
    · simp at hout2
    · exact indep c hc _ s
    · simp at hout2

/-- C3 witness: a two-column byte table, stream declaring two rows but
failing on the second column of the first row; both target columns keep
their original contents. -/
theorem claim_C3_read_atomicity_witness :
    tColA.target.get ((DataTable (some tLenRef) [tColA, tColB]).read
        (0, [9], [8]) Endian.big [0, 0, 0, 2, 7]).state = [9] ∧
    tColB.target.get ((DataTable (some tLenRef) [tColA, tColB]).read
        (0, [9], [8]) Endian.big [0, 0, 0, 2, 7]).state = [8] := by
  have hind : ∀ c ∈ [tColA, tColB], ∀ (v : Nat) (s0 : TblState),
      c.target.get (tLenRef.set v s0) = c.target.get s0 := by
    intro c hc v s0
    rcases List.mem_cons.mp hc with rfl | hc2
    · rfl
    · rcases List.mem_cons.mp hc2 with rfl | h
      · rfl
      · cases h
  exact ⟨claim_C3_read_atomicity tLenRef [tColA, tColB] (0, [9], [8]) Endian.big
      [0, 0, 0, 2, 7] hind .eof (by decide) tColA (by simp),
    claim_C3_read_atomicity tLenRef [tColA, tColB] (0, [9], [8]) Endian.big
      [0, 0, 0, 2, 7] hind .eof (by decide) tColB (by simp)⟩

/-! ## Claim C9 — the "Hi, there!" table layout (corrected: the first
column has five bytes, not six) -/

/-- C9 (as stated, refuted): with the claim's six-byte first column
`{'H','i',',','t','e','e'}` and declared row count 5, `Write` fails with
`ErrUnbalancedTable` and writes nothing — it does not succeed. -/
theorem claim_C9_counterexample :
    (DataTable (some tLenRef) [tColA, tColB]).write
        (5, [72, 105, 44, 116, 101, 101], [105, 32, 104, 114, 33]) Endian.big =
      ⟨(5, [72, 105, 44, 116, 101, 101], [105, 32, 104, 114, 33]), [],
        .fail .unbalancedTable⟩ := by
  decide

/-- C9 (amended): writing the two byte columns `{'H',',','t','e','e'}` and
`{'i',' ','h','r','!'}` via a two-column `DataTable` whose declared row
count field holds 5 succeeds and produces `0,0,0,5` followed by the
row-major interleaved bytes spelling `"Hi, there!"`. -/
theorem claim_C9_datatable_layout :
    (DataTable (some tLenRef) [tColA, tColB]).write
        (5, [72, 44, 116, 101, 101], [105, 32, 104, 114, 33]) Endian.big =
      ⟨(5, [72, 44, 116, 101, 101], [105, 32, 104, 114, 33]),
        [0, 0, 0, 5, 72, 105, 44, 32, 116, 104, 101, 114, 101, 33], .ok⟩ := by
  decide

/-! ## Claim C10 — `Slice`/`LenSlice`/`DynamicSlice`/`Map` read atomicity
(confirmed) -/

/-- C10: when `Slice.read` (and hence `LenSlice.read` and
`DynamicSlice.read`, which delegate to it) or `Map.read` fails because an
element, key or value read failed (or the prefix read failed), the target
slice or map is exactly as it was before the call: decoding happens into
a fresh local slice/map assigned only after every element succeeded.  For
`Slice`, `DynamicSlice` and `Map` the whole state is untouched; for
`LenSlice` the count field is written first, so the conclusion is about
the target slice, with the hypothesis that the count field and the target
are separate variables. -/
theorem claim_C10_collection_read_atomicity {σ E K V : Type} [DecidableEq K]
    (tr : Ref σ (List E)) (cr : Ref σ Nat) (mr : Ref σ (List (K × V)))
    (count w : Nat) (dflt : E) (elem : ElemMapper E)
    (kd : K) (vd : V) (keyM : ElemMapper K) (valM : ElemMapper V)
    (s : σ) (e : Endian) (st : List Nat) :
    (∀ err, ((Slice (some tr) count dflt elem).read s e st).out = .fail err →
      ((Slice (some tr) count dflt elem).read s e st).state = s) ∧
    ((∀ v s0, tr.get (cr.set v s0) = tr.get s0) →
      ∀ err, ((LenSlice (some tr) (some cr) w dflt elem).read s e st).out = .fail err →
        tr.get ((LenSlice (some tr) (some cr) w dflt elem).read s e st).state =
          tr.get s) ∧
    (∀ err, ((DynamicSlice (some tr) dflt elem).read s e st).out = .fail err →
      ((DynamicSlice (some tr) dflt elem).read s e st).state = s) ∧
    (∀ err, ((Map (some mr) kd vd keyM valM).read s e st).out = .fail err →
      ((Map (some mr) kd vd keyM valM).read s e st).state = s) := by
  have hslice : ∀ (s1 : σ) (n : Nat) (st1 : List Nat), ∀ err,
      ((Slice (some tr) n dflt elem).read s1 e st1).out = .fail err →
      ((Slice (some tr) n dflt elem).read s1 e st1).state = s1 := by
    intro s1 n st1 err hf
    show (match sliceReadAux elem dflt n [] e st1 with
      | (input, st2, .ok) => RResult.mk (tr.set input s1) st2 .ok
      | (_, st2, o) => ⟨s1, st2, o⟩).state = s1
    rcases hsr : sliceReadAux elem dflt n [] e st1 with ⟨input, st2, o⟩
    have hf2 : (match sliceReadAux elem dflt n [] e st1 with
      | (input, st2, .ok) => RResult.mk (tr.set input s1) st2 .ok
      | (_, st2, o) => ⟨s1, st2, o⟩).out = .fail err := hf
    rw [hsr] at hf2
    rcases o with _ | e2 | v
    · simp at hf2
    · rfl
    · simp at hf2
  have hfw : ∀ (s1 : σ), ((fixedWidth w (· % 2 ^ (8 * w)) id cr).read s1 e st).state = s1 ∨
      ((fixedWidth w (· % 2 ^ (8 * w)) id cr).read s1 e st).state =
        cr.set (decUint e (st.take w)) s1 := by
    intro s1
    simp only [fixedWidth]
    rcases h4 : readBytesExact w st with e4 | ⟨bs, rest2⟩
    · left; rfl
    · right
      have hbs : bs = st.take w := by
        revert h4
        unfold readBytesExact
        split
        · intro h; cases h; rfl
        · split <;> intro h <;> cases h
      rw [hbs]
      rfl
  refine ⟨hslice s count st, ?_, ?_, ?_⟩
  · intro hind err hf
    have hle : (LenSlice (some tr) (some cr) w dflt elem).read s e st =
        match (Size w (some cr)).read s e st with
        | ⟨s1, rest, .ok⟩ => (Slice (some tr) (cr.get s1) dflt elem).read s1 e rest
        | other => other := rfl
    rw [hle] at hf ⊢
    rcases hsz : (Size w (some cr)).read s e st with ⟨s1, rest, o⟩
    rw [hsz] at hf
    have hs1 : tr.get s1 = tr.get s := by
      have hd := hfw s
      rw [show (Size w (some cr)).read s e st =
        (fixedWidth w (· % 2 ^ (8 * w)) id cr).read s e st from rfl] at hsz
      rw [hsz] at hd
      rcases hd with h | h
      · rw [show s1 = s from h]
      · rw [show s1 = cr.set (decUint e (st.take w)) s from h, hind]
    rcases o with _ | e2 | v
    · rw [hslice s1 (cr.get s1) rest err hf]
      exact hs1
    · exact hs1
    · exact hs1
  · intro err hf
    have hd : (DynamicSlice (some tr) dflt elem).read s e st =
        match readBytesExact 4 st with
        | .error err => ⟨s, st.drop 4, .fail err⟩
        | .ok (bs, rest) => (Slice (some tr) (decUint e bs) dflt elem).read s e rest :=
      rfl
    rw [hd] at hf ⊢
    rcases h4 : readBytesExact 4 st with e4 | ⟨bs, rest⟩
    · rfl
    · rw [h4] at hf
      exact hslice s (decUint e bs) rest err hf
  · intro err hf
    have hm : (Map (some mr) kd vd keyM valM).read s e st =
        match readBytesExact 4 st with
        | .error err => ⟨s, st.drop 4, .fail err⟩
        | .ok (bs, rest) =>
          match mapReadAux keyM valM kd vd (decUint e bs) [] e rest with
          | (m, st1, .ok) => ⟨mr.set m s, st1, .ok⟩
          | (_, st1, o) => ⟨s, st1, o⟩ := rfl
    rw [hm] at hf ⊢
    rcases h4 : readBytesExact 4 st with e4 | ⟨bs, rest⟩
    · rfl
    · rw [h4] at hf
      have hf2 : (match mapReadAux keyM valM kd vd (decUint e bs) [] e rest with
          | (m, st1, .ok) => RResult.mk (mr.set m s) st1 .ok
          | (_, st1, o) => ⟨s, st1, o⟩).out = .fail err := hf
      show (match mapReadAux keyM valM kd vd (decUint e bs) [] e rest with
          | (m, st1, .ok) => RResult.mk (mr.set m s) st1 .ok
          | (_, st1, o) => ⟨s, st1, o⟩).state = s
      rcases hmr : mapReadAux keyM valM kd vd (decUint e bs) [] e rest with ⟨m, st1, o⟩
      rw [hmr] at hf2
      rcases o with _ | e2 | v
      · simp at hf2
      · rfl
      · simp at hf2

/-- C10 witness: a one-element byte slice read from an empty stream and a
map read whose value read fails; both targets keep their prior
contents. -/
theorem claim_C10_collection_read_atomicity_witness :
    ((Slice (some (idRef (List Nat))) 1 0 byteElem).read [42] Endian.big []).out =
      .fail .eof ∧
    ((Slice (some (idRef (List Nat))) 1 0 byteElem).read [42] Endian.big []).state =
      [42] ∧
    ((Map (some (idRef (List (Nat × Nat)))) 0 0 byteElem byteElem).read
      [(1, 2)] Endian.big [0, 0, 0, 1, 9]).out = .fail .eof ∧
    ((Map (some (idRef (List (Nat × Nat)))) 0 0 byteElem byteElem).read
      [(1, 2)] Endian.big [0, 0, 0, 1, 9]).state = [(1, 2)] := by
  refine ⟨by decide, ?_, by decide, ?_⟩
  · exact (claim_C10_collection_read_atomicity (idRef (List Nat))
      (⟨fun _ => 0, fun _ s => s⟩) (⟨fun _ => [], fun _ s => s⟩ : Ref (List Nat) (List (Nat × Nat)))
      1 1 0 byteElem 0 0 byteElem byteElem [42] Endian.big []).1 .eof (by decide)
  · exact (claim_C10_collection_read_atomicity
      (⟨fun _ => [], fun _ s => s⟩ : Ref (List (Nat × Nat)) (List Nat))
      (⟨fun _ => 0, fun _ s => s⟩) (idRef (List (Nat × Nat)))
      1 1 0 byteElem 0 0 byteElem byteElem [(1, 2)] Endian.big
      [0, 0, 0, 1, 9]).2.2.2 .eof (by decide)

/-! ## Claim C7 — `Map` round-trip and last-write-wins (confirmed) -/

theorem leBytes_length (w x : Nat) : (leBytes w x).length = w := by
  induction w generalizing x with
  | zero => rfl
  | succ n ih => simp [leBytes, ih]

theorem encUint_length (e : Endian) (w x : Nat) : (encUint e w x).length = w := by
  cases e <;> simp [encUint, leBytes_length]

theorem leVal_leBytes (w x : Nat) : leVal (leBytes w x) = x % 2 ^ (8 * w) := by
  induction w generalizing x with
  | zero => simp [leBytes, leVal, Nat.mod_one]
  | succ n ih =>
    simp only [leBytes, leVal, ih]
    have h1 : 2 ^ (8 * (n + 1)) = 256 * 2 ^ (8 * n) := by ring
    rw [h1, Nat.mod_mul]

theorem decUint_encUint (e : Endian) (w x : Nat) :
    decUint e (encUint e w x) = x % 2 ^ (8 * w) := by
  cases e <;> simp [decUint, encUint, List.reverse_reverse, leVal_leBytes]

theorem mapLookup_append {K V : Type} [DecidableEq K] (l1 l2 : List (K × V)) (k : K) :
    mapLookup (l1 ++ l2) k =
      match mapLookup l1 k with
      | some v => some v
      | none => mapLookup l2 k := by
  induction l1 with
  | nil => rfl
  | cons p rest ih =>
    rcases p with ⟨k1, v1⟩
    by_cases h : k1 = k
    · simp [mapLookup, h]
    · simp [mapLookup, h, ih]

theorem mapLookup_eq_none {K V : Type} [DecidableEq K] {m : List (K × V)} {k : K}
    (h : ∀ p ∈ m, p.1 ≠ k) : mapLookup m k = none := by
  induction m with
  | nil => rfl
  | cons p rest ih =>
    rcases p with ⟨k1, v1⟩
    rw [mapLookup, if_neg (h (k1, v1) (by simp)), ih (fun q hq => h q (by simp [hq]))]

theorem mapLookup_map_replace {K V : Type} [DecidableEq K] (m : List (K × V))
    (k : K) (v : V) (h : ∃ p ∈ m, p.1 = k) :
    mapLookup (m.map (fun p => if p.1 = k then (k, v) else p)) k = some v := by
  induction m with
  | nil => rcases h with ⟨p, hp, _⟩; cases hp
  | cons p rest ih =>
    rcases p with ⟨k1, v1⟩
    by_cases hk : k1 = k
    · subst hk
      rw [List.map_cons,
        show (if ((k1, v1) : K × V).1 = k1 then (k1, v) else (k1, v1)) = (k1, v) from by
          simp,
        mapLookup, if_pos rfl]
    · rw [List.map_cons,
        show (if ((k1, v1) : K × V).1 = k then (k, v) else (k1, v1)) = (k1, v1) from by
          simp [hk],
        mapLookup, if_neg hk]
      apply ih
      rcases h with ⟨q, hq, hqk⟩
      rcases List.mem_cons.mp hq with rfl | hq2
      · exact absurd hqk hk
      · exact ⟨q, hq2, hqk⟩

theorem mapLookup_map_replace_ne {K V : Type} [DecidableEq K] (m : List (K × V))
    (k k' : K) (v : V) (hne : k' ≠ k) :
    mapLookup (m.map (fun p => if p.1 = k then (k, v) else p)) k' = mapLookup m k' := by
  induction m with
  | nil => rfl
  | cons p rest ih =>
    rcases p with ⟨k1, v1⟩
    by_cases hk : k1 = k
    · simp only [List.map_cons, show ((k1, v1) : K × V).1 = k from hk, if_pos rfl,
        show (if ((k1, v1) : K × V).1 = k then (k, v) else (k1, v1)) = (k, v) from by
          simp [hk]]
      rw [mapLookup, if_neg (Ne.symm hne), mapLookup, if_neg (by rw [hk]; exact Ne.symm hne),
        ih]
    · rw [List.map_cons,
        show (if ((k1, v1) : K × V).1 = k then (k, v) else (k1, v1)) = (k1, v1) from by
          simp [hk],
        mapLookup, mapLookup]
      by_cases h2 : k1 = k'
      · simp [h2]
      · simp [h2, ih]

theorem mapLookup_mapInsert_self {K V : Type} [DecidableEq K]
    (m : List (K × V)) (k : K) (v : V) :
    mapLookup (mapInsert m k v) k = some v := by
  unfold mapInsert
  split
  · rename_i hany
    exact mapLookup_map_replace m k v (by simpa using hany)
  · rename_i hany
    have hnone : ∀ p ∈ m, p.1 ≠ k := by
      intro p hp hpk
      exact hany (List.any_eq_true.mpr ⟨p, hp, by simp [hpk]⟩)
    rw [mapLookup_append, mapLookup_eq_none hnone]
    simp [mapLookup]

theorem mapLookup_mapInsert_ne {K V : Type} [DecidableEq K]
    (m : List (K × V)) (k k' : K) (v : V) (hne : k' ≠ k) :
    mapLookup (mapInsert m k v) k' = mapLookup m k' := by
  unfold mapInsert
  split
  · exact mapLookup_map_replace_ne m k k' v hne
  · rw [mapLookup_append]
    cases h : mapLookup m k'
    · simp [mapLookup, Ne.symm hne]
    · rfl

theorem mapLookup_foldl_mapInsert {K V : Type} [DecidableEq K] (pairs : List (K × V)) :
    ∀ (acc : List (K × V)) (k : K),
      mapLookup (pairs.foldl (fun m p => mapInsert m p.1 p.2) acc) k =
        match mapLookup pairs.reverse k with
        | some v => some v
        | none => mapLookup acc k := by
  induction pairs with
  | nil => intro acc k; rfl
  | cons p ps ih =>
    intro acc k
    rcases p with ⟨k1, v1⟩
    rw [List.foldl_cons, ih, List.reverse_cons, mapLookup_append]
    cases hps : mapLookup ps.reverse k
    · by_cases hk : k1 = k
      · subst hk
        simp [mapLookup, mapLookup_mapInsert_self]
      · simp [mapLookup, hk, mapLookup_mapInsert_ne acc k1 k v1 (Ne.symm hk)]
    · rfl

theorem foldl_mapInsert_of_nodup {K V : Type} [DecidableEq K] (pairs : List (K × V)) :
    ∀ acc, (∀ p ∈ pairs, ∀ q ∈ acc, q.1 ≠ p.1) → (pairs.map Prod.fst).Nodup →
      pairs.foldl (fun m p => mapInsert m p.1 p.2) acc = acc ++ pairs := by
  induction pairs with
  | nil => intro acc _ _; simp
  | cons p ps ih =>
    intro acc hacc hnd
    rcases p with ⟨k1, v1⟩
    rw [List.foldl_cons]
    have hins : mapInsert acc k1 v1 = acc ++ [(k1, v1)] := by
      unfold mapInsert
      rw [if_neg (by
        simp only [List.any_eq_true, not_exists, not_and]
        intro q hq
        simpa using hacc (k1, v1) (by simp) q hq)]
    rw [hins, ih (acc ++ [(k1, v1)])
      (by
        intro p hp q hq
        rcases List.mem_append.mp hq with hq1 | hq2
        · exact hacc p (by simp [hp]) q hq1
        · rw [List.mem_singleton.mp hq2]
          simp only [List.map_cons, List.nodup_cons] at hnd
          intro hkp
          exact hnd.1 (by
            rw [show k1 = p.1 from hkp]
            exact List.mem_map_of_mem Prod.fst hp))
      (by simp only [List.map_cons, List.nodup_cons] at hnd; exact hnd.2)]
    simp

theorem mapWriteAux_out_ok {K V : Type} (keyM : ElemMapper K) (valM : ElemMapper V)
    (kd : K) (vd : V) (e : Endian)
    (hk : RoundTrips keyM kd e) (hv : RoundTrips valM vd e) (pairs : List (K × V)) :
    (mapWriteAux keyM valM pairs e).2 = .ok := by
  induction pairs with
  | nil => rfl
  | cons p ps ih =>
    rcases p with ⟨k, v⟩
    have h1 := (hk k []).1
    have h2 := (hv v []).1
    rcases hkw : keyM.write k e with ⟨bsk, ko⟩
    rcases hvw : valM.write v e with ⟨bsv, vo⟩
    rw [hkw] at h1
    rw [hvw] at h2
    cases h1
    cases h2
    rw [mapWriteAux, hkw, hvw]
    simpa using ih

theorem mapReadAux_roundTrip {K V : Type} [DecidableEq K] (keyM : ElemMapper K)
    (valM : ElemMapper V) (kd : K) (vd : V) (e : Endian)
    (hk : RoundTrips keyM kd e) (hv : RoundTrips valM vd e) :
    ∀ (pairs m0 : List (K × V)) (rest : List Nat),
      mapReadAux keyM valM kd vd pairs.length m0 e
          ((mapWriteAux keyM valM pairs e).1 ++ rest) =
        (pairs.foldl (fun m p => mapInsert m p.1 p.2) m0, rest, .ok) := by
  intro pairs
  induction pairs with
  | nil => intro m0 rest; rfl
  | cons p ps ih =>
    intro m0 rest
    rcases p with ⟨k, v⟩
    have h1 := (hk k ((valM.write v e).1 ++ ((mapWriteAux keyM valM ps e).1 ++ rest))).2
    have h1o := (hk k []).1
    have h2 := (hv v ((mapWriteAux keyM valM ps e).1 ++ rest)).2
    have h2o := (hv v []).1
    rcases hkw : keyM.write k e with ⟨bsk, ko⟩
    rcases hvw : valM.write v e with ⟨bsv, vo⟩
    rw [hkw] at h1 h1o
    rw [hvw] at h1 h2 h2o
    cases h1o
    cases h2o
    have hwire : (mapWriteAux keyM valM ((k, v) :: ps) e).1 =
        bsk ++ (bsv ++ (mapWriteAux keyM valM ps e).1) := by
      rw [mapWriteAux, hkw, hvw]
      rcases mapWriteAux keyM valM ps e with ⟨bs3, o3⟩
      simp
    simp only at h1 h2
    rw [hwire, List.length_cons,
      show (bsk ++ (bsv ++ (mapWriteAux keyM valM ps e).1)) ++ rest =
        bsk ++ (bsv ++ ((mapWriteAux keyM valM ps e).1 ++ rest)) from by simp,
      mapReadAux, h1]
    show (match valM.read vd e (bsv ++ ((mapWriteAux keyM valM ps e).1 ++ rest)) with
      | (v, st2, .ok) => mapReadAux keyM valM kd vd ps.length (mapInsert m0 k v) e st2
      | (_, st2, o) => (m0, st2, o)) = _
    rw [h2]
    show mapReadAux keyM valM kd vd ps.length (mapInsert m0 k v) e
        ((mapWriteAux keyM valM ps e).1 ++ rest) = _
    rw [List.foldl_cons]
    exact ih (mapInsert m0 k v) rest

/-- The stream-level behavior of `Map.read` on a well-formed wire: a
4-byte count `n` followed by `n` serialized pairs decodes to the fold of
`m[key] = val` over the pairs, consuming exactly the wire. -/
theorem mapRead_wire {σ K V : Type} [DecidableEq K] (r : Ref σ (List (K × V)))
    (kd : K) (vd : V) (keyM : ElemMapper K) (valM : ElemMapper V) (e : Endian)
    (hk : RoundTrips keyM kd e) (hv : RoundTrips valM vd e)
    (pairs : List (K × V)) (hn : pairs.length < 2 ^ 32)
    (s2 : σ) (rest : List Nat) :
    (Map (some r) kd vd keyM valM).read s2 e
        (encUint e 4 pairs.length ++ ((mapWriteAux keyM valM pairs e).1 ++ rest)) =
      ⟨r.set (pairs.foldl (fun m p => mapInsert m p.1 p.2) []) s2, rest, .ok⟩ := by
  have hlen4 : (encUint e 4 pairs.length).length = 4 := encUint_length e 4 _
  have htake : (encUint e 4 pairs.length ++
      ((mapWriteAux keyM valM pairs e).1 ++ rest)).take 4 = encUint e 4 pairs.length :=
    List.take_left' hlen4
  have hdrop : (encUint e 4 pairs.length ++
      ((mapWriteAux keyM valM pairs e).1 ++ rest)).drop 4 =
      (mapWriteAux keyM valM pairs e).1 ++ rest :=
    List.drop_left' hlen4
  have h4 : readBytesExact 4 (encUint e 4 pairs.length ++
      ((mapWriteAux keyM valM pairs e).1 ++ rest)) =
      .ok (encUint e 4 pairs.length, (mapWriteAux keyM valM pairs e).1 ++ rest) := by
    unfold readBytesExact
    rw [if_pos (by rw [List.length_append, hlen4]; omega), htake, hdrop]
  show (match readBytesExact 4 (encUint e 4 pairs.length ++
      ((mapWriteAux keyM valM pairs e).1 ++ rest)) with
    | .error err => RResult.mk s2 ((encUint e 4 pairs.length ++
        ((mapWriteAux keyM valM pairs e).1 ++ rest)).drop 4) (.fail err)
    | .ok (bs, rest2) =>
      match mapReadAux keyM valM kd vd (decUint e bs) [] e rest2 with
      | (m, st1, .ok) => ⟨r.set m s2, st1, .ok⟩
      | (_, st1, o) => ⟨s2, st1, o⟩) = _
  rw [h4]
  have hdec : decUint e (encUint e 4 pairs.length) = pairs.length := by
    rw [decUint_encUint]
    exact Nat.mod_eq_of_lt (by norm_num at hn ⊢; exact hn)
  show (match mapReadAux keyM valM kd vd (decUint e (encUint e 4 pairs.length)) [] e
      ((mapWriteAux keyM valM pairs e).1 ++ rest) with
    | (m, st1, .ok) => RResult.mk (r.set m s2) st1 .ok
    | (_, st1, o) => ⟨s2, st1, o⟩) = _
  rw [hdec, mapReadAux_roundTrip keyM valM kd vd e hk hv pairs [] rest]

/-- C7: writing a map whose key and value mappers faithfully round-trip
their types and reading the produced bytes back (same byte-order
policy) yields the same entry count and the same key-to-value
associations — here literally the same association list, for whichever
enumeration order the write used; and on read, duplicate keys on the
wire silently overwrite earlier entries (last-write-wins: the final
binding of `k` is the last wire occurrence of `k`), with no error
raised. -/
theorem claim_C7_map_roundtrip {σ K V : Type} [DecidableEq K]
    (r : Ref σ (List (K × V))) (kd : K) (vd : V)
    (keyM : ElemMapper K) (valM : ElemMapper V)
    (s s2 : σ) (e : Endian) (rest : List Nat)
    (hk : RoundTrips keyM kd e) (hv : RoundTrips valM vd e) :
    ((r.get s).length < 2 ^ 32 → ((r.get s).map Prod.fst).Nodup →
      ((Map (some r) kd vd keyM valM).write s e).out = .ok ∧
      (Map (some r) kd vd keyM valM).read s2 e
          (((Map (some r) kd vd keyM valM).write s e).written ++ rest) =
        ⟨r.set (r.get s) s2, rest, .ok⟩) ∧
    (∀ pairs : List (K × V), pairs.length < 2 ^ 32 →
      ((Map (some r) kd vd keyM valM).read s2 e
          (encUint e 4 pairs.length ++ ((mapWriteAux keyM valM pairs e).1 ++ rest)) =
        ⟨r.set (pairs.foldl (fun m p => mapInsert m p.1 p.2) []) s2, rest, .ok⟩ ∧
      ∀ k, mapLookup (pairs.foldl (fun m p => mapInsert m p.1 p.2) []) k =
        mapLookup pairs.reverse k)) := by
  constructor
  · intro hlen hnd
    have hout : ((Map (some r) kd vd keyM valM).write s e).out =
        (mapWriteAux keyM valM (r.get s) e).2 := rfl
    have hwr : ((Map (some r) kd vd keyM valM).write s e).written =
        encUint e 4 ((r.get s).length % 2 ^ 32) ++ (mapWriteAux keyM valM (r.get s) e).1 :=
      rfl
    refine ⟨by rw [hout]; exact mapWriteAux_out_ok keyM valM kd vd e hk hv _, ?_⟩
    rw [hwr, Nat.mod_eq_of_lt hlen, List.append_assoc]
    rw [mapRead_wire r kd vd keyM valM e hk hv (r.get s) hlen s2 rest]
    rw [foldl_mapInsert_of_nodup (r.get s) [] (by simp) hnd]
    rw [List.nil_append]
  · intro pairs hn
    refine ⟨mapRead_wire r kd vd keyM valM e hk hv pairs hn s2 rest, ?_⟩
    intro k
    rw [mapLookup_foldl_mapInsert pairs [] k]
    cases hps : mapLookup pairs.reverse k <;> rfl

theorem unaryReadAux_replicate (t : Nat) : ∀ (acc : Nat) (rest : List Nat),
    unaryReadAux acc (List.replicate t 1 ++ 0 :: rest) = (acc + t, rest, .ok) := by
  induction t with
  | zero => intro acc rest; simp [unaryReadAux]
  | succ n ih =>
    intro acc rest
    rw [List.replicate_succ, List.cons_append, unaryReadAux, if_neg (by norm_num), ih]
    rw [show acc + 1 + n = acc + (n + 1) from by omega]

theorem natUnaryElem_roundTrips (e : Endian) : RoundTrips natUnaryElem 0 e := by
  intro t rest
  refine ⟨rfl, ?_⟩
  show unaryReadAux 0 ((List.replicate t 1 ++ [0]) ++ rest) = (t, rest, .ok)
  rw [List.append_assoc, List.singleton_append, unaryReadAux_replicate t 0 rest,
    Nat.zero_add]

theorem readBytesExact_one (b : Nat) (rest : List Nat) :
    readBytesExact 1 (b :: rest) = .ok ([b], rest) := by
  unfold readBytesExact
  rw [if_pos (by simp)]
  rfl

theorem boolElem_roundTrips (e : Endian) : RoundTrips boolElem false e := by
  intro t rest
  refine ⟨by cases e <;> cases t <;> rfl, ?_⟩
  cases e <;> cases t <;>
    simp [boolElem, elemOfMapper, Bool, fixedWidth, readBytesExact_one, decUint, leVal,
      idRef, encUint, leBytes, List.reverse_singleton]

theorem mapWrite_written {σ K V : Type} [DecidableEq K] (r : Ref σ (List (K × V)))
    (kd : K) (vd : V) (keyM : ElemMapper K) (valM : ElemMapper V) (s : σ) (e : Endian) :
    ((Map (some r) kd vd keyM valM).write s e).written =
      encUint e 4 ((r.get s).length % 2 ^ 32) ++ (mapWriteAux keyM valM (r.get s) e).1 := by
  show (match mapWriteAux keyM valM (r.get s) e with
    | (bs, o) => WResult.mk s (encUint e 4 ((r.get s).length % 2 ^ 32) ++ bs) o).written = _
  rcases hw : mapWriteAux keyM valM (r.get s) e with ⟨bs, o⟩
  rfl

theorem mapRoundTrip_breaks_at_two_pow_32 (M : List (Nat × Boolean))
    (hM : M.length = 2 ^ 32) :
    ((Map (some (idRef (List (Nat × Boolean)))) 0 false natUnaryElem boolElem).read []
      Endian.big
      (((Map (some (idRef (List (Nat × Boolean)))) 0 false natUnaryElem boolElem).write
          M Endian.big).written ++ [])).state = [] := by
  rw [List.append_nil, mapWrite_written,
    show (idRef (List (Nat × Boolean))).get M = M from rfl, hM, Nat.mod_self]
  have h := mapRead_wire (idRef (List (Nat × Boolean))) 0 false natUnaryElem boolElem
    Endian.big (natUnaryElem_roundTrips _) (boolElem_roundTrips _) [] (by norm_num)
    [] ((mapWriteAux natUnaryElem boolElem M Endian.big).1)
  rw [show (encUint Endian.big 4 0 ++ (mapWriteAux natUnaryElem boolElem M Endian.big).1) =
    encUint Endian.big 4 (List.length ([] : List (Nat × Boolean))) ++
      ((mapWriteAux natUnaryElem boolElem ([] : List (Nat × Boolean)) Endian.big).1 ++
        (mapWriteAux natUnaryElem boolElem M Endian.big).1) from rfl]
  rw [h]
  rfl

/-- C7 (as stated, refuted): `Map.write` emits `uint32(len(*target))`, so
the claim's "every finite map" fails at a map of `2^32` entries (unary
integer keys, so both element mappers faithfully round-trip all their
values, and all keys are distinct): the wire carries an entry count of
`0`, and reading the written bytes back yields the empty map, not a map
equal to the original. -/
theorem claim_C7_counterexample :
    ((Map (some (idRef (List (Nat × Boolean)))) 0 false natUnaryElem boolElem).read []
        Endian.big
        ((((Map (some (idRef (List (Nat × Boolean)))) 0 false natUnaryElem boolElem).write
            ((List.range (2 ^ 32)).map (fun i => (i, true))) Endian.big).written ++
          []))).state = [] ∧
    ((List.range (2 ^ 32)).map (fun i => (i, (true : Boolean)))).length = 2 ^ 32 ∧
    (((List.range (2 ^ 32)).map (fun i => (i, (true : Boolean)))).map Prod.fst).Nodup ∧
    RoundTrips natUnaryElem 0 Endian.big ∧ RoundTrips boolElem false Endian.big := by
  have hm : ((List.range (2 ^ 32)).map (fun i => (i, (true : Boolean)))).length = 2 ^ 32 := by
    rw [List.length_map, List.length_range]
  refine ⟨mapRoundTrip_breaks_at_two_pow_32 _ hm, hm, ?_,
    natUnaryElem_roundTrips Endian.big, boolElem_roundTrips Endian.big⟩
  rw [show ((List.range (2 ^ 32)).map (fun i => (i, (true : Boolean)))).map Prod.fst =
    List.range (2 ^ 32) from by
      rw [List.map_map]
      exact List.map_id _]
  exact List.nodup_range _

/-- C7 witness: the 2-entry boolean map `{false ↦ true, true ↦ false}`
written and read back, plus a duplicated-key wire whose final binding is
the last occurrence. -/
theorem claim_C7_map_roundtrip_witness :
    (Map (some (idRef (List (Boolean × Boolean)))) false false boolElem boolElem).read
        [] Endian.big
        (((Map (some (idRef (List (Boolean × Boolean)))) false false boolElem
            boolElem).write [(false, true), (true, false)] Endian.big).written ++ []) =
      ⟨[(false, true), (true, false)], [], .ok⟩ ∧
    mapLookup ([(true, (true : Boolean)), (true, false)].foldl
        (fun m p => mapInsert m p.1 p.2) []) true = some false := by
  constructor
  · exact ((claim_C7_map_roundtrip (idRef (List (Boolean × Boolean))) false false
      boolElem boolElem [(false, true), (true, false)] [] Endian.big []
      (boolElem_roundTrips Endian.big) (boolElem_roundTrips Endian.big)).1
      (by decide) (by decide)).2
  · exact ((claim_C7_map_roundtrip (idRef (List (Boolean × Boolean))) false false
      boolElem boolElem [] [] Endian.big []
      (boolElem_roundTrips Endian.big) (boolElem_roundTrips Endian.big)).2
      [(true, true), (true, false)] (by decide)).2 true |>.trans (by decide)

/-! ## Claim C4 — varint round-trip, minimality, endian independence
(confirmed) -/

theorem lor_shift_add (s a c : Nat) (h : a < 2 ^ s) : a ||| c <<< s = a + c * 2 ^ s := by
  rw [Nat.shiftLeft_eq, Nat.lor_comm, Nat.mul_comm c (2 ^ s), ← Nat.mul_add_lt_is_or h]
  ring

set_option maxRecDepth 100000 in
theorem byte_lor_128_not_lt (b : Nat) (hb : b < 256) : ¬(b ||| 128 < 128) := by
  revert hb
  revert b
  decide

set_option maxRecDepth 100000 in
theorem byte_lor_128_and_127 (b : Nat) (hb : b < 256) : (b ||| 128) &&& 127 = b % 128 := by
  revert hb
  revert b
  decide

/-- The continuation-bit loop invariant: decoding the encoding of `x`
shifted into position `s` on top of the already-accumulated low bits
`acc` yields `acc + x * 2 ^ s` and consumes exactly the encoding.  The
fuel runs from 10 with `x < 2 ^ (7 * fuel - 6)`, matching the
`MaxVarintLen64` window and the final-byte overflow check (`b ≤ 1` on
the tenth byte). -/
theorem readUvarintAux_putUvarintAux :
    ∀ (fuel : Nat), 0 < fuel → ∀ (x acc s : Nat) (rest : List Nat),
      x < 2 ^ (7 * fuel - 6) → acc < 2 ^ s →
      readUvarintAux fuel acc s (putUvarintAux fuel x ++ rest) =
        (.ok (acc + x * 2 ^ s), rest) := by
  intro fuel
  induction fuel with
  | zero => intro h; cases h
  | succ f ih =>
    intro _ x acc s rest hx hacc
    by_cases h128 : 128 ≤ x
    · have hf1 : 1 ≤ f := by
        by_contra hf0
        have : f = 0 := by omega
        subst this
        simp only [show 7 * 1 - 6 = 1 from rfl] at hx
        omega
      rw [putUvarintAux, if_pos h128, List.cons_append, readUvarintAux,
        if_neg (byte_lor_128_not_lt (x % 256) (Nat.mod_lt x (by norm_num))),
        byte_lor_128_and_127 (x % 256) (Nat.mod_lt x (by norm_num)),
        Nat.mod_mod_of_dvd x (by norm_num : (128 : Nat) ∣ 256),
        lor_shift_add s acc (x % 128) hacc]
      have hacc7 : acc + x % 128 * 2 ^ s < 2 ^ (s + 7) := by
        have h1 : x % 128 ≤ 127 := by omega
        have hi : x % 128 * 2 ^ s ≤ 127 * 2 ^ s := Nat.mul_le_mul_right (2 ^ s) h1
        have h3 : 2 ^ (s + 7) = 128 * 2 ^ s := by rw [Nat.pow_add, Nat.mul_comm]
        omega
      have hxdiv : x / 128 < 2 ^ (7 * f - 6) := by
        rw [Nat.div_lt_iff_lt_mul (by norm_num : (0 : Nat) < 128)]
        have h3 : 2 ^ (7 * f - 6) * 128 = 2 ^ (7 * (f + 1) - 6) := by
          rw [show 7 * (f + 1) - 6 = 7 * f - 6 + 7 from by omega, Nat.pow_add]
        omega
      rw [ih hf1 (x / 128) (acc + x % 128 * 2 ^ s) (s + 7) rest hxdiv hacc7]
      have : acc + x % 128 * 2 ^ s + x / 128 * 2 ^ (s + 7) = acc + x * 2 ^ s := by
        have h3 : 2 ^ (s + 7) = 2 ^ s * 128 := by rw [Nat.pow_add]
        have h4 : x = 128 * (x / 128) + x % 128 := (Nat.div_add_mod x 128).symm
        calc acc + x % 128 * 2 ^ s + x / 128 * 2 ^ (s + 7)
            = acc + (x % 128 + 128 * (x / 128)) * 2 ^ s := by rw [h3]; ring
          _ = acc + x * 2 ^ s := by rw [show x % 128 + 128 * (x / 128) = x from by omega]
      rw [this]
    · have hxlt : x < 128 := by omega
      rw [putUvarintAux, if_neg h128, Nat.mod_eq_of_lt (by omega : x < 256),
        List.cons_append, List.nil_append, readUvarintAux, if_pos hxlt]
      have hcheck : ¬(f = 0 ∧ 1 < x) := by
        rintro ⟨rfl, hx1⟩
        simp only [show 7 * 1 - 6 = 1 from rfl] at hx
        omega
      rw [if_neg hcheck, lor_shift_add s acc x hacc]

/-- `ReadUvarint` inverts `PutUvarint` on every `uint64` value, consuming
exactly the encoding. -/
theorem readUvarint_putUvarint (x : Nat) (rest : List Nat) (hx : x < 2 ^ 64) :
    readUvarint (putUvarint x ++ rest) = (.ok x, rest) := by
  have h := readUvarintAux_putUvarintAux 10 (by norm_num) x 0 0 rest
    (by norm_num at hx ⊢; exact hx) (by norm_num)
  simpa using h

/-- The encoding length is the least positive number of 7-bit groups
covering the value. -/
theorem putUvarintAux_minimal :
    ∀ (fuel : Nat), 0 < fuel → ∀ x : Nat, x < 2 ^ (7 * fuel) →
      x < 2 ^ (7 * (putUvarintAux fuel x).length) ∧
      ∀ m, 0 < m → x < 2 ^ (7 * m) → (putUvarintAux fuel x).length ≤ m := by
  intro fuel
  induction fuel with
  | zero => intro h; cases h
  | succ f ih =>
    intro _ x hx
    by_cases h128 : 128 ≤ x
    · have hf1 : 1 ≤ f := by
        by_contra hf0
        have : f = 0 := by omega
        subst this
        norm_num at hx
        omega
      have hxdiv : x / 128 < 2 ^ (7 * f) := by
        rw [Nat.div_lt_iff_lt_mul (by norm_num : (0 : Nat) < 128)]
        have h3 : 2 ^ (7 * f) * 128 = 2 ^ (7 * (f + 1)) := by
          rw [show 7 * (f + 1) = 7 * f + 7 from by ring, Nat.pow_add]
        omega
      obtain ⟨ihb, ihmin⟩ := ih hf1 (x / 128) hxdiv
      rw [putUvarintAux, if_pos h128]
      constructor
      · rw [List.length_cons]
        have h3 : 2 ^ (7 * ((putUvarintAux f (x / 128)).length + 1)) =
            2 ^ (7 * (putUvarintAux f (x / 128)).length) * 128 := by
          rw [show 7 * ((putUvarintAux f (x / 128)).length + 1) =
            7 * (putUvarintAux f (x / 128)).length + 7 from by ring, Nat.pow_add]
        have h4 : x < 128 * (x / 128 + 1) := by
          have := Nat.div_add_mod x 128
          have := Nat.mod_lt x (show 0 < 128 by norm_num)
          omega
        have h5 : x / 128 + 1 ≤ 2 ^ (7 * (putUvarintAux f (x / 128)).length) := ihb
        have := Nat.mul_le_mul_left 128 h5
        omega
      · intro m hm hxm
        rw [List.length_cons]
        have hm2 : 2 ≤ m := by
          by_contra hm1
          have : m = 1 := by omega
          subst this
          norm_num at hxm
          omega
        have hdivm : x / 128 < 2 ^ (7 * (m - 1)) := by
          rw [Nat.div_lt_iff_lt_mul (by norm_num : (0 : Nat) < 128)]
          have h3 : 2 ^ (7 * (m - 1)) * 128 = 2 ^ (7 * m) := by
            rw [show 7 * m = 7 * (m - 1) + 7 from by omega, Nat.pow_add]
          omega
        have := ihmin (m - 1) (by omega) hdivm
        omega
    · rw [putUvarintAux, if_neg h128]
      refine ⟨by norm_num; omega, fun m hm _ => by simpa using hm⟩

theorem zigzagEncode_lt (x : ℤ) : zigzagEncode x < 2 ^ 64 := by
  simp only [zigzagEncode]
  split <;> omega

theorem zigzagDecode_zigzagEncode (x : ℤ) (h1 : -(2 : ℤ) ^ 63 ≤ x)
    (h2 : x < 2 ^ 63) : zigzagDecode (zigzagEncode x) = x := by
  simp only [zigzagEncode, zigzagDecode, Nat.shiftRight_one, Nat.and_one_is_mod]
  norm_num at h1 h2 ⊢
  split <;> split <;> omega

/-- C4: `Varint` and `Uvarint` round-trip every `int64`/`uint64` value;
the byte count is the minimal number of 7-bit continuation groups for
the value (after the zig-zag remap for the signed codec) — in particular
`257` encodes to exactly 2 bytes — and the produced bytes do not depend
on the byte-order policy passed to the call. -/
theorem claim_C4_varint_codec {σ : Type} (r : Ref σ ℤ) (ru : Ref σ Nat)
    (s s2 : σ) (e e2 : Endian) (rest : List Nat) :
    ((-(2 : ℤ) ^ 63 ≤ r.get s → r.get s < 2 ^ 63 →
      (Varint (some r)).write s e = ⟨s, putVarint (r.get s), .ok⟩ ∧
      (Varint (some r)).read s2 e (putVarint (r.get s) ++ rest) =
        ⟨r.set (r.get s) s2, rest, .ok⟩)) ∧
    (ru.get s < 2 ^ 64 →
      (Uvarint (some ru)).write s e = ⟨s, putUvarint (ru.get s), .ok⟩ ∧
      (Uvarint (some ru)).read s2 e (putUvarint (ru.get s) ++ rest) =
        ⟨ru.set (ru.get s) s2, rest, .ok⟩) ∧
    (∀ u : Nat, u < 2 ^ 64 →
      u < 2 ^ (7 * (putUvarint u).length) ∧
      ∀ m, 0 < m → u < 2 ^ (7 * m) → (putUvarint u).length ≤ m) ∧
    (∀ x : ℤ, putVarint x = putUvarint (zigzagEncode x)) ∧
    (putUvarint 257).length = 2 ∧
    ((Varint (some r)).write s e = (Varint (some r)).write s e2 ∧
      (Uvarint (some ru)).write s e = (Uvarint (some ru)).write s e2) := by
  refine ⟨?_, ?_, ?_, fun x => rfl, by decide, rfl, rfl⟩
  · intro h1 h2
    refine ⟨rfl, ?_⟩
    show (match readUvarint (putVarint (r.get s) ++ rest) with
      | (.ok ux, rest2) => RResult.mk (r.set (zigzagDecode ux) s2) rest2 .ok
      | (.error err, rest2) => ⟨s2, rest2, .fail err⟩) = _
    rw [show putVarint (r.get s) = putUvarint (zigzagEncode (r.get s)) from rfl,
      readUvarint_putUvarint (zigzagEncode (r.get s)) rest (zigzagEncode_lt _)]
    show RResult.mk (r.set (zigzagDecode (zigzagEncode (r.get s))) s2) rest .ok = _
    rw [zigzagDecode_zigzagEncode (r.get s) h1 h2]
  · intro hu
    refine ⟨rfl, ?_⟩
    show (match readUvarint (putUvarint (ru.get s) ++ rest) with
      | (.ok ux, rest2) => RResult.mk (ru.set ux s2) rest2 .ok
      | (.error err, rest2) => ⟨s2, rest2, .fail err⟩) = _
    rw [readUvarint_putUvarint (ru.get s) rest hu]
  · intro u hu
    exact putUvarintAux_minimal 10 (by norm_num) u (by norm_num at hu ⊢; omega)

/-- C4 witness: `-3` through the signed codec (zig-zag value 5, one
byte), `257` through the unsigned codec (exactly the two bytes
`0x81 0x02`), read back intact. -/
theorem claim_C4_varint_codec_witness :
    (Varint (some (idRef ℤ))).read 0 Endian.big
        (putVarint (-3) ++ [7]) = ⟨-3, [7], .ok⟩ ∧
    putUvarint 257 = [129, 2] ∧
    (Uvarint (some (idRef Nat))).read 0 Endian.little
        (putUvarint 257 ++ []) = ⟨257, [], .ok⟩ := by
  refine ⟨?_, by decide, ?_⟩
  · have h := (claim_C4_varint_codec (idRef ℤ) (⟨fun _ => 0, fun _ s => s⟩)
      (-3) 0 Endian.big Endian.big [7]).1 (by norm_num [idRef]) (by norm_num [idRef])
    exact h.2
  · have h := (claim_C4_varint_codec (⟨fun _ => 0, fun _ s => s⟩ : Ref Nat ℤ)
      (idRef Nat) 257 0 Endian.little Endian.little []).2.1 (by norm_num [idRef])
    exact h.2

end Binmap
